import Mathlib

/-!
Verification of the conversation engine in `lib/conversationEngine.js`.

JavaScript strings are embedded as `List Char`; JavaScript's dynamically
typed values (strings, booleans, `undefined`) are embedded as `JSVal`, and
plain objects (which keep property-insertion order) as `JSObj`, an
insertion-ordered association list.  All functions below are translated
from the source file; helper vocabulary used only in proofs (well-formed
frames, `GFrame`, `frameStr`, ...) is clearly marked.
-/

/-! ## Basic character classes (as used by the JavaScript regexes) -/

/-- JavaScript's regex `\w` class: `[A-Za-z0-9_]` (ASCII). -/
def isWordChar (c : Char) : Bool := c.isAlpha || c.isDigit || c == '_'

/-- Word-ness of an optional character; the ends of a string count as
non-word (used to evaluate the `\b` assertion). -/
def wordOpt : Option Char → Bool
  | none => false
  | some c => isWordChar c

/-- The `\b` assertion between a previous and a next character: it holds
iff exactly one side is a word character. -/
def isBoundary (p n : Option Char) : Bool := wordOpt p != wordOpt n

/-! ## Splitting and joining on a single character

`String.prototype.split(c)` and `Array.prototype.join(c)` for a
single-character separator, on the `List Char` embedding.
`splitChar c ""` is `[""]`, exactly as in JavaScript. -/

def splitChar (c : Char) : List Char → List (List Char)
  | [] => [[]]
  | x :: xs =>
    match splitChar c xs with
    | [] => [[]]
    | y :: ys => if x = c then [] :: y :: ys else (x :: y) :: ys

theorem splitChar_ne_nil (c : Char) (s : List Char) : splitChar c s ≠ [] := by
  cases s with
  | nil => simp [splitChar]
  | cons x xs =>
    simp only [splitChar]
    cases h : splitChar c xs with
    | nil => simp
    | cons y ys => by_cases hx : x = c <;> simp [hx]

theorem splitChar_eq_self {c : Char} {s : List Char} (h : c ∉ s) :
    splitChar c s = [s] := by
  induction s with
  | nil => rfl
  | cons x xs ih =>
    simp only [List.mem_cons, not_or] at h
    have hx : x ≠ c := fun hx => h.1 hx.symm
    simp [splitChar, ih h.2, hx]

theorem splitChar_append_cons {c : Char} {a : List Char} (t : List Char)
    (h : c ∉ a) : splitChar c (a ++ c :: t) = a :: splitChar c t := by
  induction a with
  | nil =>
    simp only [List.nil_append, splitChar]
    cases hs : splitChar c t with
    | nil => exact absurd hs (splitChar_ne_nil c t)
    | cons y ys => simp
  | cons x xs ih =>
    simp only [List.mem_cons, not_or] at h
    have hx : x ≠ c := fun hx => h.1 hx.symm
    simp [List.cons_append, splitChar, ih h.2, hx]

/-- Splitting an interpolation of separator-free pieces recovers the
pieces (the list of pieces must be non-empty, as in `[].join` ↦ `""`). -/
theorem splitChar_intercalate (c : Char) (l : List (List Char))
    (hne : l ≠ []) (h : ∀ s ∈ l, c ∉ s) :
    splitChar c (List.intercalate [c] l) = l := by
  induction l with
  | nil => exact absurd rfl hne
  | cons a l ih =>
    cases l with
    | nil =>
      simpa [List.intercalate] using splitChar_eq_self (h a (by simp))
    | cons b l2 =>
      have hab : List.intercalate [c] (a :: b :: l2)
          = a ++ c :: List.intercalate [c] (b :: l2) := by
        simp [List.intercalate, List.intersperse]
      rw [hab, splitChar_append_cons _ (h a (by simp))]
      rw [ih (by simp) (fun s hs => h s (List.mem_cons_of_mem a hs))]

theorem mem_splitChar_not_mem {c : Char} {s : List Char} :
    ∀ x ∈ splitChar c s, c ∉ x := by
  induction s with
  | nil => simp [splitChar]
  | cons a s ih =>
    simp only [splitChar]
    cases hs : splitChar c s with
    | nil => simp
    | cons y ys =>
      by_cases hac : a = c
      · simp only [hac, if_pos rfl]
        intro x hx
        rcases List.mem_cons.1 hx with h1 | h1
        · simp [h1]
        · exact ih x (hs ▸ h1)
      · simp only [if_neg hac]
        intro x hx
        rcases List.mem_cons.1 hx with h1 | h1
        · subst h1
          intro hc
          rcases List.mem_cons.1 hc with h2 | h2
          · exact hac h2.symm
          · exact ih y (hs ▸ List.mem_cons_self y ys) h2
        · exact ih x (hs ▸ List.mem_cons_of_mem y h1)

theorem length_splitChar (c : Char) (s : List Char) :
    (splitChar c s).length = s.count c + 1 := by
  induction s with
  | nil => simp [splitChar]
  | cons a s ih =>
    simp only [splitChar]
    cases hs : splitChar c s with
    | nil => exact absurd hs (splitChar_ne_nil c s)
    | cons y ys =>
      rw [hs] at ih
      by_cases hac : a = c
      · subst hac
        simp only [if_pos rfl, if_true, List.length_cons, List.count_cons_self]
        simp only [List.length_cons] at ih
        omega
      · simp only [if_neg hac, List.length_cons,
          List.count_cons_of_ne (fun h => hac h.symm)]
        simp only [List.length_cons] at ih
        omega

/-! ## JavaScript values and insertion-ordered objects -/

/-- The JavaScript values that flow through the ShortJSON codec. -/
inductive JSVal
  | str (s : List Char)
  | bool (b : Bool)
  | undef
  deriving DecidableEq, Repr

/-- String coercion (as performed by `+` concatenation, `Array.join` on
non-null values and property access). -/
def jsToStr : JSVal → List Char
  | .str s => s
  | .bool true => 't' :: 'r' :: 'u' :: 'e' :: []
  | .bool false => 'f' :: 'a' :: 'l' :: 's' :: 'e' :: []
  | .undef => 'u' :: 'n' :: 'd' :: 'e' :: 'f' :: 'i' :: 'n' :: 'e' :: 'd' :: []

/-- JavaScript truthiness of the embedded values. -/
def jsTruthy : JSVal → Bool
  | .str s => s ≠ []
  | .bool b => b
  | .undef => false

/-- `Array.prototype.join` coerces `undefined` to the empty string. -/
def jsJoinStr : JSVal → List Char
  | .undef => []
  | v => jsToStr v

/-- A JavaScript plain object: property-insertion-ordered association
list with unique property names (maintained by `objSet`). -/
abbrev JSObj := List (List Char × JSVal)

/-- Property read, `o[k]`: `none` plays the role of `undefined`. -/
def objGet (o : JSObj) (k : List Char) : Option JSVal :=
  (o.find? (fun p => p.1 = k)).map (fun p => p.2)

/-- Property write, `o[k] = v`: overwrite in place if the name exists
(keeping its insertion position), otherwise append. -/
def objSet (o : JSObj) (k : List Char) (v : JSVal) : JSObj :=
  if o.any (fun p => p.1 = k) then
    o.map (fun p => if p.1 = k then (k, v) else p)
  else o ++ [(k, v)]

/-- The reserved property name `key` of a goal frame. -/
def keyProp : List Char := 'k' :: 'e' :: 'y' :: []

/-- The `queried` flag name of a goal frame. -/
def queriedProp : List Char :=
  'q' :: 'u' :: 'e' :: 'r' :: 'i' :: 'e' :: 'd' :: []

/-! ## ShortJSON (class `ShortJSON`, conversationEngine.js lines 418-472)

Space-sensitive serialization with `;` separating frames and `:`
separating a frame's key from its true boolean flags. -/

/-- `ShortJSON.sjnToArr`: `''` (and absent) decodes to `[]`, anything
else is split on `;`. -/
def sjnToArr (s : List Char) : List (List Char) :=
  if s = [] then [] else splitChar ';' s

/-- `ShortJSON.arrToSJN`: `arr.join(';')`. -/
def arrToSJN (arr : List JSVal) : List Char :=
  List.intercalate (';' :: []) (arr.map jsJoinStr)

/-- One item of `ShortJSON.arrToArrObj`: split on `:`; part 0 becomes the
`key` property, every later part becomes a `true`-valued flag property. -/
def buildArrObj (item : List Char) : JSObj :=
  ((splitChar ':' item).enum).foldl
    (fun obj p =>
      if p.1 = 0 then objSet obj keyProp (.str p.2)
      else objSet obj p.2 (.bool true))
    []

/-- `ShortJSON.arrToArrObj`. -/
def arrToArrObj (arr : List (List Char)) : List JSObj :=
  arr.map buildArrObj

/-- One item of `ShortJSON.arrObjToArr`: start from `arrObjItem.key` and
append `':' + prop` for every other truthy property, in insertion order.
`jsConcatV` is JavaScript's `+` on a value and a string. -/
def jsConcatV (acc : JSVal) (s : List Char) : JSVal := .str (jsToStr acc ++ s)

def buildArrItem (obj : JSObj) : JSVal :=
  obj.foldl
    (fun acc p =>
      if p.1 = keyProp then acc
      else if jsTruthy p.2 then jsConcatV acc (':' :: p.1) else acc)
    ((objGet obj keyProp).getD .undef)

/-- `ShortJSON.arrObjToArr`. -/
def arrObjToArr (arrObj : List JSObj) : List JSVal :=
  arrObj.map buildArrItem

/-- `ShortJSON.arrToArrObjKey`: the `key` property of each decoded frame
(string coercion of a property read). -/
def arrToArrObjKey (arr : List (List Char)) : List (Option JSVal) :=
  (arrToArrObj arr).map (fun o => objGet o keyProp)

/-- `ShortJSON.arrPush`. -/
def arrPush (arr : List Char) (s : List Char) : List Char :=
  if arr = [] then s else arr ++ ';' :: s

/-! ## Goal frames (proof vocabulary)

A well-formed goal frame in the sense of the specification: a JavaScript
object whose `key` property is a `[A-Za-z]+` string and whose other
properties are `[a-z]+`-named flags holding `true`.  `toObj` renders it
as a `JSObj` (the `key` property first, as every frame produced by the
codec has it), `frameStr` as its ShortJSON text. -/

structure GFrame where
  key : List Char
  flags : List (List Char)
  deriving DecidableEq, Repr

/-- Character class `[A-Za-z]` of frame keys. -/
def isKeyChar (c : Char) : Bool := c.isAlpha

/-- Character class `[a-z]` of flag names. -/
def isFlagChar (c : Char) : Bool := c.isLower

def WFkey (k : List Char) : Prop := k ≠ [] ∧ ∀ c ∈ k, isKeyChar c = true

def WFflag (f : List Char) : Prop := f ≠ [] ∧ ∀ c ∈ f, isFlagChar c = true

/-- Well-formed frame: valid key, valid pairwise-distinct flag names.  A
JavaScript object cannot carry a flag property named `key` (that name is
taken by the key itself), hence the last condition. -/
def WFframe (fr : GFrame) : Prop :=
  WFkey fr.key ∧ (∀ f ∈ fr.flags, WFflag f) ∧ fr.flags.Nodup ∧ keyProp ∉ fr.flags

instance (k : List Char) : Decidable (WFkey k) := by unfold WFkey; infer_instance
instance (f : List Char) : Decidable (WFflag f) := by unfold WFflag; infer_instance
instance (fr : GFrame) : Decidable (WFframe fr) := by unfold WFframe; infer_instance

def toObj (fr : GFrame) : JSObj :=
  (keyProp, .str fr.key) :: fr.flags.map (fun f => (f, .bool true))

def frameStr (fr : GFrame) : List Char :=
  fr.key ++ (fr.flags.map (fun f => ':' :: f)).flatten

theorem keyChar_ne_semi {c : Char} (h : isKeyChar c = true) : c ≠ ';' := by
  intro hc; subst hc; simp [isKeyChar, Char.isAlpha, Char.isUpper, Char.isLower] at h

theorem keyChar_ne_colon {c : Char} (h : isKeyChar c = true) : c ≠ ':' := by
  intro hc; subst hc; simp [isKeyChar, Char.isAlpha, Char.isUpper, Char.isLower] at h

theorem flagChar_ne_semi {c : Char} (h : isFlagChar c = true) : c ≠ ';' := by
  intro hc; subst hc; simp [isFlagChar, Char.isLower] at h

theorem flagChar_ne_colon {c : Char} (h : isFlagChar c = true) : c ≠ ':' := by
  intro hc; subst hc; simp [isFlagChar, Char.isLower] at h

theorem semi_not_mem_frameStr {fr : GFrame} (h : WFframe fr) :
    ';' ∉ frameStr fr := by
  intro hmem
  rcases List.mem_append.1 hmem with hk | hf
  · exact keyChar_ne_semi (h.1.2 ';' hk) rfl
  · rcases List.mem_flatten.1 hf with ⟨piece, hp, hc⟩
    rcases List.mem_map.1 hp with ⟨f, hfmem, rfl⟩
    rcases List.mem_cons.1 hc with h1 | h1
    · exact absurd h1.symm (by decide)
    · exact flagChar_ne_semi ((h.2.1 f hfmem).2 ';' h1) rfl

theorem frameStr_ne_nil {fr : GFrame} (h : WFframe fr) : frameStr fr ≠ [] := by
  unfold frameStr
  intro hcontra
  exact h.1.1 (List.append_eq_nil.1 hcontra).1

/-! ## Encoding one frame -/

theorem objGet_toObj_key (fr : GFrame) :
    objGet (toObj fr) keyProp = some (.str fr.key) := by
  simp [objGet, toObj, List.find?]

theorem buildArrItem_toObj {fr : GFrame} (h : WFframe fr) :
    buildArrItem (toObj fr) = .str (frameStr fr) := by
  have step : ∀ (flags : List (List Char)) (a : List Char),
      keyProp ∉ flags →
      (flags.map (fun f => (f, JSVal.bool true))).foldl
        (fun acc p =>
          if p.1 = keyProp then acc
          else if jsTruthy p.2 then jsConcatV acc (':' :: p.1) else acc)
        (.str a)
      = .str (a ++ (flags.map (fun f => ':' :: f)).flatten) := by
    intro flags
    induction flags with
    | nil => intro a _; simp
    | cons f fs ih =>
      intro a hnot
      simp only [List.mem_cons, not_or] at hnot
      have hfk : ¬ f = keyProp := fun hc => hnot.1 hc.symm
      have h1 : (fun (acc : JSVal) (p : List Char × JSVal) =>
          if p.1 = keyProp then acc
          else if jsTruthy p.2 then jsConcatV acc (':' :: p.1) else acc)
          (JSVal.str a) (f, JSVal.bool true) = JSVal.str (a ++ ':' :: f) := by
        simp [hfk, jsTruthy, jsConcatV, jsToStr]
      simp only [List.map_cons, List.foldl_cons, h1]
      rw [ih (a ++ ':' :: f) hnot.2]
      simp
  unfold buildArrItem
  rw [objGet_toObj_key fr]
  unfold frameStr
  have hobj : toObj fr
      = (keyProp, JSVal.str fr.key) :: fr.flags.map (fun f => (f, JSVal.bool true)) := rfl
  rw [hobj]
  simp only [Option.getD, List.foldl_cons, if_pos rfl]
  exact step fr.flags fr.key h.2.2.2

/-! ## Decoding one frame -/

theorem splitChar_key_join (k : List Char) (flags : List (List Char))
    (hk : ':' ∉ k) (hf : ∀ f ∈ flags, ':' ∉ f) :
    splitChar ':' (k ++ (flags.map (fun f => ':' :: f)).flatten) = k :: flags := by
  induction flags generalizing k with
  | nil => simpa using splitChar_eq_self hk
  | cons f fs ih =>
    have hstep : k ++ ((f :: fs).map (fun g => ':' :: g)).flatten
        = k ++ ':' :: (f ++ (fs.map (fun g => ':' :: g)).flatten) := by
      simp
    rw [hstep, splitChar_append_cons _ hk,
      ih f (hf f (by simp)) (fun g hg => hf g (List.mem_cons_of_mem f hg))]

theorem splitChar_frameStr {fr : GFrame} (h : WFframe fr) :
    splitChar ':' (frameStr fr) = fr.key :: fr.flags := by
  apply splitChar_key_join
  · intro hc; exact keyChar_ne_colon (h.1.2 ':' hc) rfl
  · intro f hf hc; exact flagChar_ne_colon ((h.2.1 f hf).2 ':' hc) rfl

theorem objSet_not_mem (o : JSObj) (k : List Char) (v : JSVal)
    (h : o.any (fun p => p.1 = k) = false) : objSet o k v = o ++ [(k, v)] := by
  simp [objSet, h]

theorem buildArrObj_frameStr {fr : GFrame} (h : WFframe fr) :
    buildArrObj (frameStr fr) = toObj fr := by
  have step : ∀ (flags : List (List Char)) (n : Nat) (obj : JSObj),
      (∀ f ∈ flags, obj.any (fun p => p.1 = f) = false) → flags.Nodup →
      (List.enumFrom (n + 1) flags).foldl
        (fun obj p =>
          if p.1 = 0 then objSet obj keyProp (.str p.2)
          else objSet obj p.2 (.bool true))
        obj
      = obj ++ flags.map (fun f => (f, JSVal.bool true)) := by
    intro flags
    induction flags with
    | nil => intro n obj _ _; simp [List.enumFrom]
    | cons f fs ih =>
      intro n obj hnot hnd
      simp only [List.enumFrom, List.foldl_cons]
      rw [if_neg (by omega : ¬ n + 1 = 0)]
      rw [objSet_not_mem obj f (.bool true) (hnot f (by simp))]
      rw [ih (n + 1) _ ?_ (List.nodup_cons.1 hnd).2]
      · simp
      · intro g hg
        rw [List.any_append]
        simp only [Bool.or_eq_false_iff]
        refine ⟨hnot g (List.mem_cons_of_mem f hg), ?_⟩
        have hfg : ¬ f = g := by
          intro hgf
          exact (List.nodup_cons.1 hnd).1 (by rw [hgf]; exact hg)
        simp [hfg]
  unfold buildArrObj
  rw [splitChar_frameStr h]
  simp only [List.enum, List.enumFrom, List.foldl_cons, if_pos rfl]
  rw [objSet_not_mem [] keyProp (.str fr.key) (by simp)]
  rw [step fr.flags 0 _ ?_ h.2.2.1]
  · simp [toObj]
  · intro f hf
    have hkf : ¬ keyProp = f := by
      intro hc; exact h.2.2.2 (by rw [hc]; exact hf)
    simp [hkf]

theorem intercalate_cons_ne_nil {a : List Char} (sep : List Char)
    (l : List (List Char)) (h : a ≠ []) : List.intercalate sep (a :: l) ≠ [] := by
  cases l with
  | nil => simpa [List.intercalate, List.intersperse] using h
  | cons b l2 =>
    simp only [List.intercalate, List.intersperse]
    intro hc
    exact h (List.append_eq_nil.1 hc).1

/-! ## Claim C1: ShortJSON round-trip -/

theorem arrObjToArr_map_toObj (L : List GFrame) (h : ∀ fr ∈ L, WFframe fr) :
    arrObjToArr (L.map toObj) = L.map (fun fr => JSVal.str (frameStr fr)) := by
  unfold arrObjToArr
  rw [List.map_map]
  exact List.map_congr_left (fun fr hfr => buildArrItem_toObj (h fr hfr))

/-- C1.  ShortJSON round-trip: for every list `L` of frame objects whose
keys match `[A-Za-z]+` and whose flag names match `[a-z]+` (flags present
only when true, with the distinct flag names a JavaScript object forces),
`arrToArrObj (sjnToArr (arrToSJN (arrObjToArr L))) = L`; moreover the
empty list encodes to the empty string and the empty string decodes to
the empty list. -/
theorem C1_shortJSON_roundtrip (L : List GFrame) (h : ∀ fr ∈ L, WFframe fr) :
    arrToArrObj (sjnToArr (arrToSJN (arrObjToArr (L.map toObj)))) = L.map toObj
    ∧ arrToSJN (arrObjToArr (List.map toObj [])) = []
    ∧ arrToArrObj (sjnToArr []) = [] := by
  refine ⟨?_, rfl, rfl⟩
  rw [arrObjToArr_map_toObj L h]
  unfold arrToSJN
  rw [List.map_map]
  have hjoin : (jsJoinStr ∘ fun fr => JSVal.str (frameStr fr))
      = fun fr => frameStr fr := by
    funext fr; rfl
  rw [hjoin]
  cases L with
  | nil => rfl
  | cons fr rest =>
    unfold sjnToArr
    rw [if_neg (by
      simpa using intercalate_cons_ne_nil [';']
        ((rest.map (fun fr => frameStr fr)))
        (frameStr_ne_nil (h fr (by simp))))]
    rw [show (List.map (fun fr => frameStr fr) (fr :: rest))
        = (fr :: rest).map frameStr from rfl]
    rw [splitChar_intercalate ';' ((fr :: rest).map frameStr) (by simp) ?_]
    · unfold arrToArrObj
      rw [List.map_map]
      exact List.map_congr_left (fun g hg => buildArrObj_frameStr (h g hg))
    · intro s hs
      rcases List.mem_map.1 hs with ⟨g, hgmem, rfl⟩
      exact semi_not_mem_frameStr (h g hgmem)

/-- Witness for C1 at a concrete two-frame list. -/
theorem C1_shortJSON_roundtrip_witness :
    (∀ fr ∈ [GFrame.mk ['A'] [['q', 'r'], ['z']], GFrame.mk ['k'] []], WFframe fr)
    ∧ arrToArrObj (sjnToArr (arrToSJN (arrObjToArr
        (List.map toObj [GFrame.mk ['A'] [['q', 'r'], ['z']], GFrame.mk ['k'] []]))))
      = List.map toObj [GFrame.mk ['A'] [['q', 'r'], ['z']], GFrame.mk ['k'] []] :=
  ⟨by decide, (C1_shortJSON_roundtrip
    [GFrame.mk ['A'] [['q', 'r'], ['z']], GFrame.mk ['k'] []] (by decide)).1⟩

/-! ## The regexes of `inSJN` and `clearInSJN`

`inSJN` tests `new RegExp('\\b' + str + '\\b')`; `clearInSJN` replaces
the first match of `new RegExp('\\b' + str + '(:[a-z]*)*\\b')`.  The
matcher below implements exactly the JavaScript semantics of these two
patterns for a literal `str`: positions are tried left to right; at a
position the literal is matched, then the `(:[a-z]*)*` group is matched
greedily with backtracking until the final `\b` assertion holds. -/

/-- Length of the leading `[a-z]` run (the greedy first try of `[a-z]*`). -/
def lowerRun : List Char → Nat
  | [] => 0
  | c :: cs => if c.isLower then lowerRun cs + 1 else 0

mutual

/-- Match the `(:[a-z]*)*` group followed by the final `\b`, starting
after `prev`; returns the number of characters consumed by the group in
the leftmost-greedy match. -/
def starMatch (prev : Option Char) (s : List Char) : Option Nat :=
  match s with
  | ':' :: rest =>
    match repTry rest (lowerRun rest) with
    | some n => some n
    | none => if isBoundary prev (some ':') then some 0 else none
  | _ => if isBoundary prev s.head? then some 0 else none
termination_by (s.length, 0)
decreasing_by
  simp_wf
  apply Prod.Lex.left
  try simp only [List.length_cons]
  omega

/-- Try one `:[a-z]*` repetition consuming the colon plus `j` letters,
backtracking to smaller `j` when the continuation fails. -/
def repTry (rest : List Char) (j : Nat) : Option Nat :=
  Option.orElse
    ((starMatch (if j = 0 then some ':' else rest[j - 1]?) (rest.drop j)).map
      (fun n => 1 + j + n))
    (fun _ =>
      match j with
      | 0 => none
      | j' + 1 => repTry rest j')
termination_by (rest.length, j + 1)
decreasing_by
  · simp_wf
    rcases Nat.lt_or_ge (rest.length - j) rest.length with h | h
    · apply Prod.Lex.left
      simpa [List.length_drop] using h
    · have he : rest.length - j = rest.length := by omega
      rw [he]
      apply Prod.Lex.right
      omega
  · simp_wf
    apply Prod.Lex.right
    omega

end

/-- Match of `\b k (:[a-z]*)* \b` at the current position (just after
`prev`); returns the length of the match. -/
def matchLen (k : List Char) (prev : Option Char) (s : List Char) : Option Nat :=
  if isBoundary prev s.head? ∧ k.isPrefixOf s then
    (starMatch (if k = [] then prev else k.getLast?) (s.drop k.length)).map
      (fun n => k.length + n)
  else none

/-- Position and length of the first match of the clear-regex in `s`:
try a match here, otherwise advance one character. -/
def searchShift (k : List Char) (prev : Option Char) (s : List Char) :
    Option (Nat × Nat) :=
  Option.orElse ((matchLen k prev s).map (fun len => (0, len)))
    (fun _ =>
      match s with
      | [] => none
      | c :: rest => (searchShift k (some c) rest).map (fun p => (p.1 + 1, p.2)))

/-- Cleanup step `replace(/;;/,';')`: drop one `;` of the first `;;`,
scanning left to right. -/
def collapseSemi : List Char → List Char
  | [] => []
  | [c] => [c]
  | c :: d :: rest =>
    if c = ';' ∧ d = ';' then ';' :: rest else c :: collapseSemi (d :: rest)

/-- Cleanup step `replace(/;$/,'')`. -/
def stripTrailSemi (s : List Char) : List Char :=
  if s.getLast? = some ';' then s.dropLast else s

/-- Cleanup step `replace(/^;/,'')`. -/
def stripLeadSemi : List Char → List Char
  | [] => []
  | c :: rest => if c = ';' then rest else c :: rest

/-- `ShortJSON.clearInSJN`: remove the first `\b str (:[a-z]*)* \b` match
and collapse the separators left behind. -/
def clearInSJN (sjnArr : List Char) (str : List Char) : List Char :=
  stripLeadSemi (stripTrailSemi (collapseSemi
    (match searchShift str none sjnArr with
     | none => sjnArr
     | some p => sjnArr.take p.1 ++ sjnArr.drop (p.1 + p.2))))

/-- Match of `\b str \b` at the current position. -/
def wordMatchAt (k : List Char) (prev : Option Char) (s : List Char) : Bool :=
  isBoundary prev s.head? && k.isPrefixOf s
    && isBoundary (if k = [] then prev else k.getLast?) ((s.drop k.length).head?)

/-- Does `\b k \b` match anywhere in `s`? -/
def wordSearch (k : List Char) (prev : Option Char) (s : List Char) : Bool :=
  wordMatchAt k prev s ||
    (match s with
     | [] => false
     | _ :: rest => wordSearch k (some (s.headD ' ')) rest)

/-- `ShortJSON.inSJN`: word-boundary regex membership test. -/
def inSJN (sjnArr : List Char) (str : List Char) : Bool :=
  wordSearch str none sjnArr

/-! ## Goal-stack helpers of the ConversationEngine

Lines 30-31 (generic array utilities) and 600-656 (goal-state accessors).
The session slot `convoGoalState` is the string argument `sess`. -/

/-- `topInArr`: depth-indexed read from the end of the array (`undefined`
for an empty array or an index at/past the length; a negative index also
reads out of bounds and yields `undefined`). -/
def topInArr {α : Type} (arr : List α) (ndx : Int) : Option α :=
  if arr.length = 0 ∨ (arr.length : Int) ≤ ndx then none
  else arr[((arr.length : Int) - ndx - 1).toNat]?

/-- `updateArr`: depth-indexed write from the end of the array; `none`
models the `false` return (no write happened). -/
def updateArr {α : Type} (arr : List α) (ndx : Int) (newVal : α) :
    Option (List α) :=
  if arr.length = 0 ∨ ndx < 0 ∨ (arr.length : Int) ≤ ndx then none
  else some (arr.set ((arr.length : Int) - ndx - 1).toNat newVal)

/-- Engine `getGoalStates`. -/
def getGoalStates (sess : List Char) : List JSObj := arrToArrObj (sjnToArr sess)

/-- Engine `setGoalStates`. -/
def setGoalStates (goalObjsArr : List JSObj) : List Char :=
  arrToSJN (arrObjToArr goalObjsArr)

/-- Engine `clearGoal` (lines 617-627): no-op on a falsy goal name;
otherwise remove the first regex match, writing the session back only
when the length changed. -/
def clearGoal (sess : List Char) (goalName : List Char) : List Char :=
  if goalName = [] then sess
  else
    if sess.length = (clearInSJN sess goalName).length then sess
    else clearInSJN sess goalName

/-- Engine `hasGoal` (lines 628-631). -/
def hasGoal (sess : List Char) (goalName : List Char) : Bool := inSJN sess goalName

/-- Engine `mostRecentGoalStates`. -/
def mostRecentGoalStates (sess : List Char) (goalNdx : Int) : Option JSObj :=
  topInArr (getGoalStates sess) goalNdx

/-- Engine `updateMostRecentGoalStates`: decode, update in place, and
re-encode; nothing is written when `updateArr` reports failure. -/
def updateMostRecentGoalStates (sess : List Char) (goalNdx : Int) (gw : JSObj) :
    List Char :=
  match updateArr (getGoalStates sess) goalNdx gw with
  | some goals => setGoalStates goals
  | none => sess

/-! ## Claim C10: `hasGoal` is a word-boundary regex test -/

/-- C10.  `hasGoal` delegates to `ShortJSON.inSJN`, which tests the
word-boundary regex on the encoded stack string rather than comparing
frame keys: on the encoding `checkIn:queried` the only frame key is
`checkIn`, yet `hasGoal` with the flag name `queried` returns `true`
although no decoded frame has `queried` as its key. -/
theorem C10_hasGoal_matches_flags :
    hasGoal ("checkIn:queried".toList) ("queried".toList) = true
    ∧ (getGoalStates ("checkIn:queried".toList)).map (fun o => objGet o keyProp)
      = [some (.str ("checkIn".toList))]
    ∧ ∀ o ∈ getGoalStates ("checkIn:queried".toList),
        objGet o keyProp ≠ some (.str ("queried".toList)) := by
  refine ⟨by decide, by decide, by decide⟩


/-! ## Encoded goal stacks (proof vocabulary for C3/C5) -/

/-- ShortJSON text of a whole frame list (what `setGoalStates` writes
for well-formed frames). -/
def encodeG (L : List GFrame) : List Char :=
  List.intercalate [';'] (L.map frameStr)

theorem intercalate_cons_cons (c : Char) (a b : List Char) (t : List (List Char)) :
    List.intercalate [c] (a :: b :: t) = a ++ c :: List.intercalate [c] (b :: t) := by
  simp [List.intercalate, List.intersperse]

theorem encodeG_cons (fr : GFrame) (L : List GFrame) (h : L ≠ []) :
    encodeG (fr :: L) = frameStr fr ++ ';' :: encodeG L := by
  cases L with
  | nil => exact absurd rfl h
  | cons g L2 =>
    simpa [encodeG] using
      intercalate_cons_cons ';' (frameStr fr) (frameStr g) (L2.map frameStr)

theorem encodeG_singleton (fr : GFrame) : encodeG [fr] = frameStr fr := by
  simp [encodeG, List.intercalate, List.intersperse]

theorem encodeG_append (pre post : List GFrame) (h1 : pre ≠ []) (h2 : post ≠ []) :
    encodeG (pre ++ post) = encodeG pre ++ ';' :: encodeG post := by
  induction pre with
  | nil => exact absurd rfl h1
  | cons f0 pre ih =>
    cases pre with
    | nil =>
      rw [List.singleton_append, encodeG_cons f0 post h2, encodeG_singleton]
    | cons f1 pre2 =>
      rw [List.cons_append, encodeG_cons f0 (f1 :: pre2 ++ post) (by simp),
        ih (by simp), encodeG_cons f0 (f1 :: pre2) (by simp)]
      simp

theorem encodeG_ne_nil {L : List GFrame} (hL : L ≠ [])
    (h : ∀ fr ∈ L, WFframe fr) : encodeG L ≠ [] := by
  cases L with
  | nil => exact absurd rfl hL
  | cons fr rest =>
    exact intercalate_cons_ne_nil [';'] (rest.map frameStr)
      (frameStr_ne_nil (h fr (by simp)))

/-- No two adjacent separators (the cleanup passes of `clearInSJN` are
no-ops on such strings). -/
def noSS : List Char → Bool
  | [] => true
  | [_] => true
  | c :: d :: rest => !(c == ';' && d == ';') && noSS (d :: rest)

theorem noSS_cons_of_ne {c : Char} {s : List Char} (hc : c ≠ ';')
    (h : noSS s = true) : noSS (c :: s) = true := by
  cases s with
  | nil => simp [noSS]
  | cons d rest =>
    simp only [noSS, Bool.and_eq_true, Bool.not_eq_true', Bool.and_eq_false_iff]
    exact ⟨Or.inl (by simpa using hc), h⟩

theorem noSS_cons_semi {s : List Char} (hh : s.head? ≠ some ';')
    (h : noSS s = true) : noSS (';' :: s) = true := by
  cases s with
  | nil => simp [noSS]
  | cons d rest =>
    simp only [List.head?_cons] at hh
    simp only [noSS, Bool.and_eq_true, Bool.not_eq_true', Bool.and_eq_false_iff]
    refine ⟨Or.inr (by simpa using fun hd : d = ';' => hh (by rw [hd])), h⟩

theorem noSS_of_not_mem {s : List Char} (h : ';' ∉ s) : noSS s = true := by
  induction s with
  | nil => rfl
  | cons c s ih =>
    simp only [List.mem_cons, not_or] at h
    exact noSS_cons_of_ne (fun hc => h.1 hc.symm) (ih h.2)

theorem noSS_sep {w t : List Char} (hw : ';' ∉ w) (ht : noSS t = true)
    (hh : t.head? ≠ some ';') : noSS (w ++ ';' :: t) = true := by
  induction w with
  | nil => exact noSS_cons_semi hh ht
  | cons c w' ih =>
    simp only [List.mem_cons, not_or] at hw
    exact noSS_cons_of_ne (fun hc => hw.1 hc.symm) (ih hw.2)

theorem collapseSemi_eq_self {s : List Char} (h : noSS s = true) :
    collapseSemi s = s := by
  induction s with
  | nil => rfl
  | cons c s ih =>
    cases s with
    | nil => rfl
    | cons d rest =>
      simp only [noSS, Bool.and_eq_true, Bool.not_eq_true',
        Bool.and_eq_false_iff] at h
      have hcd : ¬ (c = ';' ∧ d = ';') := by
        rcases h.1 with h1 | h1
        · exact fun hp => by simp [hp.1] at h1
        · exact fun hp => by simp [hp.2] at h1
      simp only [collapseSemi, if_neg hcd]
      rw [ih h.2]

theorem collapse_junction {a b : List Char} (h1 : noSS a = true)
    (h2 : a.getLast? ≠ some ';') :
    collapseSemi (a ++ ';' :: ';' :: b) = a ++ ';' :: b := by
  induction a with
  | nil => simp [collapseSemi]
  | cons c a' ih =>
    cases a' with
    | nil =>
      have hc : c ≠ ';' := by simpa using h2
      have hcd : ¬ (c = ';' ∧ (';' : Char) = ';') := fun hp => hc hp.1
      simp only [List.cons_append, List.nil_append, collapseSemi, if_neg hcd]
      simp [collapseSemi]
      exact fun h => h.symm
    | cons d a'' =>
      simp only [noSS, Bool.and_eq_true, Bool.not_eq_true',
        Bool.and_eq_false_iff] at h1
      have hcd : ¬ (c = ';' ∧ d = ';') := by
        rcases h1.1 with h | h
        · exact fun hp => by simp [hp.1] at h
        · exact fun hp => by simp [hp.2] at h
      have h2' : (d :: a'').getLast? ≠ some ';' := by
        simpa [List.getLast?_cons_cons] using h2
      have ihr := ih h1.2 h2'
      simp only [List.cons_append] at ihr ⊢
      simp only [collapseSemi, if_neg hcd]
      rw [ihr]

theorem stripTrail_of_ne {s : List Char} (h : s.getLast? ≠ some ';') :
    stripTrailSemi s = s := by
  simp [stripTrailSemi, h]

theorem stripTrail_concat (a : List Char) : stripTrailSemi (a ++ [';']) = a := by
  simp [stripTrailSemi, List.getLast?_concat]

theorem stripLead_semi (t : List Char) : stripLeadSemi (';' :: t) = t := by
  simp [stripLeadSemi]

theorem stripLead_of_ne {s : List Char} (h : s.head? ≠ some ';') :
    stripLeadSemi s = s := by
  cases s with
  | nil => rfl
  | cons c rest =>
    simp only [List.head?_cons] at h
    have hc : c ≠ ';' := fun hc => h (by rw [hc])
    simp [stripLeadSemi, hc]

/-! ## Characterizing the clear-regex matcher on well-formed encodings -/

theorem flagChar_isWord {c : Char} (h : isFlagChar c = true) : isWordChar c = true := by
  unfold isFlagChar at h
  unfold isWordChar Char.isAlpha
  simp [h]

theorem keyChar_isWord {c : Char} (h : isKeyChar c = true) : isWordChar c = true := by
  unfold isKeyChar at h
  unfold isWordChar
  simp [h]

theorem starMatch_not_colon {prev : Option Char} {s : List Char}
    (h : s.head? ≠ some ':') :
    starMatch prev s = if isBoundary prev s.head? then some 0 else none := by
  unfold starMatch
  cases s with
  | nil => simp
  | cons c rest =>
    simp only [List.head?_cons] at h ⊢
    have hc : c ≠ ':' := fun hc => h (by rw [hc])
    split
    · rename_i heq; injection heq with h1 h2; exact absurd h1 hc
    · rfl

theorem starMatch_colon (prev : Option Char) (rest : List Char) :
    starMatch prev (':' :: rest) =
      match repTry rest (lowerRun rest) with
      | some n => some n
      | none => if isBoundary prev (some ':') then some 0 else none := by
  unfold starMatch
  rfl


theorem repTry_some {rest : List Char} {j n : Nat}
    (h : starMatch (if j = 0 then some ':' else rest[j - 1]?) (rest.drop j)
        = some n) :
    repTry rest j = some (1 + j + n) := by
  unfold repTry
  rw [h]
  rfl

theorem lowerRun_prefix (f s : List Char) (hf : ∀ c ∈ f, isFlagChar c = true)
    (hs : ∀ c, s.head? = some c → c.isLower = false) :
    lowerRun (f ++ s) = f.length := by
  induction f with
  | nil =>
    cases s with
    | nil => rfl
    | cons c r => simp [lowerRun, hs c rfl]
  | cons c f' ih =>
    have hc : c.isLower = true := hf c (by simp)
    have hstep : lowerRun (c :: (f' ++ s)) = lowerRun (f' ++ s) + 1 := by
      simp [lowerRun, hc]
    rw [List.cons_append, hstep,
      ih (fun a ha => hf a (List.mem_cons_of_mem c ha))]
    simp

theorem getElem_append_pred (f r : List Char) (hf : f ≠ []) :
    (f ++ r)[f.length - 1]? = f.getLast? := by
  have hpos : 0 < f.length := List.length_pos.2 hf
  rw [List.getElem?_append_left (by omega), List.getLast?_eq_getElem?]

theorem getLast?_of_ne_nil (f : List Char) (hf : f ≠ []) :
    ∃ c, f.getLast? = some c ∧ c ∈ f := by
  have hpos : 0 < f.length := List.length_pos.2 hf
  have hlt : f.length - 1 < f.length := by omega
  exact ⟨f[f.length - 1],
    by rw [List.getLast?_eq_getElem?]; exact List.getElem?_eq_getElem hlt,
    List.getElem_mem hlt⟩

theorem matchLen_none_no_boundary {k : List Char} {prev : Option Char}
    {s : List Char} (h : wordOpt prev = wordOpt s.head?) :
    matchLen k prev s = none := by
  have hb : isBoundary prev s.head? = false := by simp [isBoundary, h]
  unfold matchLen
  rw [if_neg (by simp [hb])]

theorem matchLen_none_head_sep {k : List Char} {prev : Option Char} {c : Char}
    {rest : List Char} (hk : k ≠ []) (hkw : ∀ a ∈ k, isWordChar a = true)
    (hc : isWordChar c = false) :
    matchLen k prev (c :: rest) = none := by
  cases k with
  | nil => exact absurd rfl hk
  | cons a k' =>
    have ha : isWordChar a = true := hkw a (by simp)
    unfold matchLen
    rw [if_neg]
    rintro ⟨-, hpre⟩
    rw [List.isPrefixOf_iff_prefix, List.cons_prefix_cons] at hpre
    rw [hpre.1] at ha
    rw [ha] at hc
    exact Bool.noConfusion hc

theorem matchLen_nil {k : List Char} {prev : Option Char} (hk : k ≠ []) :
    matchLen k prev [] = none := by
  cases k with
  | nil => exact absurd rfl hk
  | cons a k' =>
    unfold matchLen
    rw [if_neg]
    rintro ⟨-, hpre⟩
    simp [List.isPrefixOf] at hpre

@[simp] theorem wordOpt_none : wordOpt none = false := rfl

@[simp] theorem wordOpt_some (c : Char) : wordOpt (some c) = isWordChar c := rfl

theorem starMatch_flags : ∀ (flags : List (List Char)) (t : List Char),
    t.head? ≠ some ':' → wordOpt t.head? = false →
    ∀ prev : Char, isWordChar prev = true → (∀ f ∈ flags, WFflag f) →
    starMatch (some prev) ((flags.map (fun f => ':' :: f)).flatten ++ t)
      = some ((flags.map (fun f => ':' :: f)).flatten).length := by
  intro flags
  induction flags with
  | nil =>
    intro t ht1 ht2 prev hw _
    simp only [List.map_nil, List.flatten_nil, List.nil_append, List.length_nil]
    rw [starMatch_not_colon ht1, if_pos]
    simp [isBoundary, hw, ht2]
  | cons f fs ih =>
    intro t ht1 ht2 prev hw hfl
    have hfwf : WFflag f := hfl f (by simp)
    have hshape : ((f :: fs).map (fun f => ':' :: f)).flatten ++ t
        = ':' :: (f ++ ((fs.map (fun f => ':' :: f)).flatten ++ t)) := by
      simp
    rw [hshape, starMatch_colon]
    have hlr : lowerRun (f ++ ((fs.map (fun f => ':' :: f)).flatten ++ t))
        = f.length := by
      apply lowerRun_prefix _ _ (fun c hc => hfwf.2 c hc)
      intro c hc
      cases fs with
      | nil =>
        simp only [List.map_nil, List.flatten_nil, List.nil_append] at hc
        rw [hc] at ht2
        simp only [wordOpt_some] at ht2
        by_contra hl
        rw [flagChar_isWord (by simpa [isFlagChar] using hl)] at ht2
        exact Bool.noConfusion ht2
      | cons g gs =>
        simp only [List.map_cons, List.flatten_cons, List.cons_append,
          List.append_assoc, List.head?_cons] at hc
        injection hc with hc
        rw [← hc]
        decide
    rw [hlr]
    have hfne : f ≠ [] := hfwf.1
    have hj0 : ¬ f.length = 0 := by
      simpa using fun h => hfne (List.length_eq_zero.1 h)
    obtain ⟨lc, hlc, hlcm⟩ := getLast?_of_ne_nil f hfne
    have hlcw : isWordChar lc = true := flagChar_isWord (hfwf.2 lc hlcm)
    have hstar := ih t ht1 ht2 lc hlcw
      (fun g hg => hfl g (List.mem_cons_of_mem f hg))
    have hrt : repTry (f ++ ((fs.map (fun f => ':' :: f)).flatten ++ t)) f.length
        = some (1 + f.length + ((fs.map (fun f => ':' :: f)).flatten).length) := by
      apply repTry_some
      rw [if_neg hj0, getElem_append_pred f _ hfne, hlc, List.drop_left]
      exact hstar
    rw [hrt]
    simp only [List.map_cons, List.flatten_cons, List.length_append,
      List.length_cons, Option.some.injEq]
    omega

theorem matchLen_at_frame {fr : GFrame} {t : List Char} {prev : Option Char}
    (h : WFframe fr) (hprev : wordOpt prev = false)
    (ht1 : t.head? ≠ some ':') (ht2 : wordOpt t.head? = false) :
    matchLen fr.key prev (frameStr fr ++ t) = some (frameStr fr).length := by
  obtain ⟨⟨hkne, hkw⟩, hflags, -, -⟩ := h
  have hb : isBoundary prev (frameStr fr ++ t).head? = true := by
    cases hkey : fr.key with
    | nil => exact absurd hkey hkne
    | cons a k' =>
      have haw : isWordChar a = true := keyChar_isWord (hkw a (by rw [hkey]; simp))
      have hhead : (frameStr fr ++ t).head? = some a := by
        simp [frameStr, hkey]
      simp [isBoundary, hhead, hprev, haw]
  have hpre : fr.key.isPrefixOf (frameStr fr ++ t) = true := by
    rw [List.isPrefixOf_iff_prefix]
    unfold frameStr
    rw [List.append_assoc]
    exact List.prefix_append _ _
  unfold matchLen
  rw [if_pos ⟨hb, hpre⟩]
  have hdrop : (frameStr fr ++ t).drop fr.key.length
      = (fr.flags.map (fun f => ':' :: f)).flatten ++ t := by
    unfold frameStr
    rw [List.append_assoc]
    exact List.drop_left _ _
  obtain ⟨lc, hlc, hlcm⟩ := getLast?_of_ne_nil fr.key hkne
  have hlcw : isWordChar lc = true := keyChar_isWord (hkw lc hlcm)
  rw [hdrop, if_neg hkne, hlc,
    starMatch_flags fr.flags t ht1 ht2 lc hlcw hflags]
  simp [frameStr]

theorem matchLen_none_token {k w t : List Char} {prev : Option Char}
    (hk : k ≠ []) (hkw : ∀ a ∈ k, isWordChar a = true)
    (hww : ∀ a ∈ w, isWordChar a = true)
    (hne : w ≠ k) (ht : wordOpt t.head? = false) :
    matchLen k prev (w ++ t) = none := by
  by_cases hpre : k.isPrefixOf (w ++ t) = true
  case neg =>
    unfold matchLen
    rw [if_neg (fun hc => hpre hc.2)]
  case pos =>
    rw [List.isPrefixOf_iff_prefix] at hpre
    rcases List.prefix_or_prefix_of_prefix hpre (List.prefix_append w t) with hkw2 | hwk
    · obtain ⟨r, hr⟩ := hkw2
      have hrne : r ≠ [] := by
        rintro rfl
        exact hne (by simp [← hr])
      have hdrop : (w ++ t).drop k.length = r ++ t := by
        rw [← hr, List.append_assoc]
        exact List.drop_left _ _
      cases hrc : r with
      | nil => exact absurd hrc hrne
      | cons d r' =>
        have hdw : isWordChar d = true := hww d (by rw [← hr, hrc]; simp)
        obtain ⟨lc, hlc, hlcm⟩ := getLast?_of_ne_nil k hk
        have hlcw : isWordChar lc = true := hkw lc hlcm
        have hsm : starMatch (if k = [] then prev else k.getLast?)
            ((w ++ t).drop k.length) = none := by
          rw [if_neg hk, hlc, hdrop, hrc]
          rw [starMatch_not_colon]
          · rw [if_neg]
            simp [isBoundary, hlcw, hdw]
          · simp only [List.cons_append, List.head?_cons]
            intro hcon
            injection hcon with hdc
            rw [hdc] at hdw
            exact absurd hdw (by decide)
        unfold matchLen
        by_cases hcond : (isBoundary prev (w ++ t).head? = true
            ∧ k.isPrefixOf (w ++ t) = true)
        · rw [if_pos hcond, hsm]
          rfl
        · rw [if_neg hcond]
    · obtain ⟨r, hr⟩ := hwk
      have hrne : r ≠ [] := by
        rintro rfl
        exact hne (by simp [← hr])
      rw [← hr, List.prefix_append_right_inj] at hpre
      cases hrc : r with
      | nil => exact absurd hrc hrne
      | cons d r' =>
        rw [hrc] at hpre
        obtain ⟨u, hu⟩ := hpre
        have hdk : isWordChar d = true := hkw d (by rw [← hr, hrc]; simp)
        have hth : t.head? = some d := by rw [← hu]; simp
        rw [hth] at ht
        simp only [wordOpt_some] at ht
        rw [ht] at hdk
        exact Bool.noConfusion hdk

theorem searchShift_nil {k : List Char} {prev : Option Char} (hk : k ≠ []) :
    searchShift k prev [] = none := by
  conv_lhs => unfold searchShift
  rw [matchLen_nil hk]
  rfl

theorem searchShift_cons_none {k : List Char} {prev : Option Char} {c : Char}
    {rest : List Char} (h : matchLen k prev (c :: rest) = none) :
    searchShift k prev (c :: rest)
      = (searchShift k (some c) rest).map (fun p => (p.1 + 1, p.2)) := by
  conv_lhs => unfold searchShift
  rw [h]
  rfl

theorem searchShift_some {k : List Char} {prev : Option Char} {s : List Char}
    {len : Nat} (h : matchLen k prev s = some len) :
    searchShift k prev s = some (0, len) := by
  conv_lhs => unfold searchShift
  rw [h]
  rfl

theorem optmap_shift (o : Option (Nat × Nat)) (m n : Nat) :
    (o.map (fun p => (p.1 + m, p.2))).map (fun p => (p.1 + n, p.2))
      = o.map (fun p => (p.1 + (m + n), p.2)) := by
  cases o with
  | none => rfl
  | some p => simp [Nat.add_assoc]

theorem getLastD_ne_nil {l : List Char} (h : l ≠ []) (a b : Char) :
    l.getLastD a = l.getLastD b := by
  obtain ⟨x, hx, -⟩ := getLast?_of_ne_nil l h
  rw [List.getLastD_eq_getLast?, List.getLastD_eq_getLast?, hx]
  rfl

theorem searchShift_skip_word (k : List Char) (hk : k ≠ [])
    (hkw : ∀ a ∈ k, isWordChar a = true) :
    ∀ (w : List Char) (prev : Char) (t : List Char),
    (∀ c ∈ w, isWordChar c = true) → isWordChar prev = true →
    searchShift k (some prev) (w ++ t)
      = (searchShift k (some (w.getLastD prev)) t).map
          (fun p => (p.1 + w.length, p.2)) := by
  intro w
  induction w with
  | nil =>
    intro prev t _ _
    simp only [List.nil_append, List.getLastD, List.length_nil]
    cases hs : searchShift k (some prev) t with
    | none => simp
    | some p => simp
  | cons c w' ih =>
    intro prev t hw hp
    have hcw : isWordChar c = true := hw c (by simp)
    have hml : matchLen k (some prev) (c :: (w' ++ t)) = none :=
      matchLen_none_no_boundary (by simp [hp, hcw])
    rw [List.cons_append, searchShift_cons_none hml]
    rw [ih c t (fun a ha => hw a (List.mem_cons_of_mem c ha)) hcw]
    rw [optmap_shift, List.getLastD_cons, List.length_cons]

theorem searchShift_skip_token (k : List Char) (hk : k ≠ [])
    (hkw : ∀ a ∈ k, isWordChar a = true) (w : List Char) (prev : Option Char)
    (t : List Char) (hwne : w ≠ []) (hww : ∀ c ∈ w, isWordChar c = true)
    (hne : w ≠ k) (ht : wordOpt t.head? = false) :
    searchShift k prev (w ++ t)
      = (searchShift k (some (w.getLastD ' ')) t).map
          (fun p => (p.1 + w.length, p.2)) := by
  cases w with
  | nil => exact absurd rfl hwne
  | cons c w' =>
    have hml : matchLen k prev (c :: (w' ++ t)) = none := by
      rw [← List.cons_append]
      exact matchLen_none_token hk hkw hww hne ht
    have hcw : isWordChar c = true := hww c (by simp)
    rw [List.cons_append, searchShift_cons_none hml]
    rw [searchShift_skip_word k hk hkw w' c t
      (fun a ha => hww a (List.mem_cons_of_mem c ha)) hcw]
    rw [optmap_shift, List.getLastD_cons, List.length_cons]

theorem searchShift_skip_sep (k : List Char) (hk : k ≠ [])
    (hkw : ∀ a ∈ k, isWordChar a = true) {c0 : Char}
    (hc0 : isWordChar c0 = false) (prev : Option Char) (t : List Char) :
    searchShift k prev (c0 :: t)
      = (searchShift k (some c0) t).map (fun p => (p.1 + 1, p.2)) :=
  searchShift_cons_none (matchLen_none_head_sep hk hkw hc0)

/-- Last character of a flag block, `prev` when there are no flags. -/
def flagsLastD (prev : Char) (flags : List (List Char)) : Char :=
  flags.foldl (fun p f => f.getLastD p) prev

theorem searchShift_skip_flags (k : List Char) (hk : k ≠ [])
    (hkw : ∀ a ∈ k, isWordChar a = true) :
    ∀ (flags : List (List Char)) (prev : Char) (t : List Char),
    (∀ f ∈ flags, WFflag f) → (∀ f ∈ flags, f ≠ k) →
    isWordChar prev = true → wordOpt t.head? = false →
    searchShift k (some prev) ((flags.map (fun f => ':' :: f)).flatten ++ t)
      = (searchShift k (some (flagsLastD prev flags)) t).map
          (fun p => (p.1 + ((flags.map (fun f => ':' :: f)).flatten).length, p.2)) := by
  intro flags
  induction flags with
  | nil =>
    intro prev t _ _ _ _
    simp only [List.map_nil, List.flatten_nil, List.nil_append, List.length_nil,
      flagsLastD, List.foldl_nil]
    cases hs : searchShift k (some prev) t with
    | none => simp
    | some p => simp
  | cons f fs ih =>
    intro prev t hfl hflk hp ht
    have hfwf : WFflag f := hfl f (by simp)
    have hfne : f ≠ [] := hfwf.1
    have hshape : ((f :: fs).map (fun f => ':' :: f)).flatten ++ t
        = ':' :: (f ++ ((fs.map (fun f => ':' :: f)).flatten ++ t)) := by
      simp
    rw [hshape, searchShift_skip_sep k hk hkw (by decide) (some prev)]
    have hnext : wordOpt (((fs.map (fun f => ':' :: f)).flatten ++ t)).head? = false := by
      cases fs with
      | nil => simpa using ht
      | cons g gs => simp [isWordChar]
    rw [searchShift_skip_token k hk hkw f (some ':') _ hfne
      (fun c hc => flagChar_isWord (hfwf.2 c hc)) (hflk f (by simp)) hnext]
    obtain ⟨lc, hlc, hlcm⟩ := getLast?_of_ne_nil f hfne
    have hlcw : isWordChar (f.getLastD ' ') = true := by
      rw [List.getLastD_eq_getLast?, hlc]
      exact flagChar_isWord (hfwf.2 lc hlcm)
    rw [ih (f.getLastD ' ') t (fun g hg => hfl g (List.mem_cons_of_mem f hg))
      (fun g hg => hflk g (List.mem_cons_of_mem f hg)) hlcw ht]
    have hlast : flagsLastD prev (f :: fs) = flagsLastD (f.getLastD ' ') fs := by
      simp only [flagsLastD, List.foldl_cons]
      rw [getLastD_ne_nil hfne prev ' ']
    rw [hlast, optmap_shift, optmap_shift]
    have hlen : ((fs.map (fun f => ':' :: f)).flatten).length + (f.length + 1)
        = (((f :: fs).map (fun f => ':' :: f)).flatten).length := by
      simp only [List.map_cons, List.flatten_cons, List.length_append,
        List.length_cons]
      omega
    rw [hlen]

theorem head?_ne_of_not_mem {s : List Char} {c : Char} (h : c ∉ s) :
    s.head? ≠ some c := by
  cases s with
  | nil => simp
  | cons a r =>
    simp only [List.head?_cons]
    intro hc
    injection hc with hc
    subst hc
    exact h (List.mem_cons_self a r)

theorem getLast?_ne_of_not_mem {s : List Char} {c : Char} (h : c ∉ s) :
    s.getLast? ≠ some c := by
  intro hc
  have hne : s ≠ [] := by rintro rfl; simp at hc
  obtain ⟨x, hx, hxm⟩ := getLast?_of_ne_nil s hne
  rw [hx] at hc
  injection hc with hc
  exact h (hc ▸ hxm)

theorem head_encodeG_ne_semi {L : List GFrame} (h : ∀ fr ∈ L, WFframe fr) :
    (encodeG L).head? ≠ some ';' := by
  cases L with
  | nil => simp [encodeG, List.intercalate, List.intersperse]
  | cons fr rest =>
    have hsemi : ';' ∉ frameStr fr := semi_not_mem_frameStr (h fr (by simp))
    obtain ⟨c, r, hcr⟩ := List.exists_cons_of_ne_nil (frameStr_ne_nil (h fr (by simp)))
    have hcne : c ≠ ';' := by
      intro hcc
      exact hsemi (by rw [hcr, hcc]; simp)
    cases rest with
    | nil =>
      rw [encodeG_singleton, hcr]
      simp only [List.head?_cons]
      intro hc; injection hc with hc; exact hcne hc
    | cons g rest2 =>
      rw [encodeG_cons fr (g :: rest2) (by simp), hcr]
      simp only [List.cons_append, List.head?_cons]
      intro hc; injection hc with hc; exact hcne hc

theorem getLast_encodeG_ne_semi {L : List GFrame} (hL : L ≠ [])
    (h : ∀ fr ∈ L, WFframe fr) : (encodeG L).getLast? ≠ some ';' := by
  induction L with
  | nil => exact absurd rfl hL
  | cons fr rest ih =>
    cases rest with
    | nil =>
      rw [encodeG_singleton]
      exact getLast?_ne_of_not_mem (semi_not_mem_frameStr (h fr (by simp)))
    | cons g rest2 =>
      rw [encodeG_cons fr (g :: rest2) (by simp)]
      have hEne : encodeG (g :: rest2) ≠ [] :=
        encodeG_ne_nil (by simp) (fun x hx => h x (List.mem_cons_of_mem fr hx))
      rw [List.getLast?_append_of_ne_nil _ (by simp : (';' :: encodeG (g :: rest2)) ≠ [])]
      rw [show (';' :: encodeG (g :: rest2)) = [';'] ++ encodeG (g :: rest2) from rfl,
        List.getLast?_append_of_ne_nil _ hEne]
      exact ih (by simp) (fun x hx => h x (List.mem_cons_of_mem fr hx))

theorem noSS_encodeG {L : List GFrame} (h : ∀ fr ∈ L, WFframe fr) :
    noSS (encodeG L) = true := by
  induction L with
  | nil => rfl
  | cons fr rest ih =>
    cases rest with
    | nil =>
      rw [encodeG_singleton]
      exact noSS_of_not_mem (semi_not_mem_frameStr (h fr (by simp)))
    | cons g rest2 =>
      rw [encodeG_cons fr (g :: rest2) (by simp)]
      exact noSS_sep (semi_not_mem_frameStr (h fr (by simp)))
        (ih (fun x hx => h x (List.mem_cons_of_mem fr hx)))
        (head_encodeG_ne_semi (fun x hx => h x (List.mem_cons_of_mem fr hx)))

theorem noSS_concat_semi {a : List Char} (h1 : noSS a = true)
    (h2 : a.getLast? ≠ some ';') : noSS (a ++ [';']) = true := by
  induction a with
  | nil => rfl
  | cons c a' ih =>
    cases a' with
    | nil =>
      have hc : c ≠ ';' := by simpa using h2
      exact noSS_cons_of_ne hc rfl
    | cons d a'' =>
      simp only [noSS, Bool.and_eq_true, Bool.not_eq_true',
        Bool.and_eq_false_iff] at h1
      have hcd : c ≠ ';' ∨ d ≠ ';' := by
        rcases h1.1 with h | h
        · exact Or.inl (by simpa using h)
        · exact Or.inr (by simpa using h)
      have h2' : (d :: a'').getLast? ≠ some ';' := by
        simpa [List.getLast?_cons_cons] using h2
      have ihr := ih h1.2 h2'
      rcases hcd with hc | hd
      · exact noSS_cons_of_ne hc ihr
      · by_cases hc : c = ';'
        · subst hc
          apply noSS_cons_semi _ ihr
          simp only [List.cons_append, List.head?_cons]
          intro hcon
          injection hcon with hcon
          exact hd hcon
        · exact noSS_cons_of_ne hc ihr

theorem searchShift_skip_frame (k : List Char) (hkne : k ≠ [])
    (hkw : ∀ a ∈ k, isWordChar a = true) (fr : GFrame) (prev : Option Char)
    (t : List Char) (hwf : WFframe fr) (hfne : fr.key ≠ k) (hflk : k ∉ fr.flags)
    (hprev : wordOpt prev = false) (ht : wordOpt t.head? = false) :
    searchShift k prev (frameStr fr ++ t)
      = (searchShift k (some (flagsLastD (fr.key.getLastD ' ') fr.flags)) t).map
          (fun p => (p.1 + (frameStr fr).length, p.2)) := by
  obtain ⟨⟨hkne', hkeyw⟩, hflags, -, -⟩ := hwf
  have hkeyword : ∀ c ∈ fr.key, isWordChar c = true :=
    fun c hc => keyChar_isWord (hkeyw c hc)
  have hassoc : frameStr fr ++ t
      = fr.key ++ ((fr.flags.map (fun f => ':' :: f)).flatten ++ t) := by
    unfold frameStr
    rw [List.append_assoc]
  rw [hassoc]
  have hnext : wordOpt ((fr.flags.map (fun f => ':' :: f)).flatten ++ t).head?
      = false := by
    cases fr.flags with
    | nil => simpa using ht
    | cons g gs => simp [isWordChar]
  rw [searchShift_skip_token k hkne hkw fr.key prev _ hkne' hkeyword hfne hnext]
  obtain ⟨lc, hlc, hlcm⟩ := getLast?_of_ne_nil fr.key hkne'
  have hlcw : isWordChar (fr.key.getLastD ' ') = true := by
    rw [List.getLastD_eq_getLast?, hlc]
    exact keyChar_isWord (hkeyw lc hlcm)
  rw [searchShift_skip_flags k hkne hkw fr.flags (fr.key.getLastD ' ') t hflags
    (fun f hf hc => hflk (hc ▸ hf)) hlcw ht]
  rw [optmap_shift]
  have hlen : ((fr.flags.map (fun f => ':' :: f)).flatten).length + fr.key.length
      = (frameStr fr).length := by
    simp only [frameStr, List.length_append]
    omega
  rw [hlen]

theorem searchShift_encodeG_none (k : List Char) (hkne : k ≠ [])
    (hkw : ∀ a ∈ k, isWordChar a = true) :
    ∀ (L : List GFrame) (prev : Option Char),
    (∀ fr ∈ L, WFframe fr) → (∀ fr ∈ L, fr.key ≠ k) →
    (∀ fr ∈ L, k ∉ fr.flags) → wordOpt prev = false →
    searchShift k prev (encodeG L) = none := by
  intro L
  induction L with
  | nil =>
    intro prev _ _ _ _
    exact searchShift_nil hkne
  | cons fr rest ih =>
    intro prev hwf hkey hflag hprev
    cases rest with
    | nil =>
      rw [encodeG_singleton,
        show frameStr fr = frameStr fr ++ [] from (List.append_nil _).symm]
      rw [searchShift_skip_frame k hkne hkw fr prev [] (hwf fr (by simp))
        (hkey fr (by simp)) (hflag fr (by simp)) hprev (by simp)]
      rw [searchShift_nil hkne]
      rfl
    | cons g rest2 =>
      rw [encodeG_cons fr (g :: rest2) (by simp)]
      rw [searchShift_skip_frame k hkne hkw fr prev (';' :: encodeG (g :: rest2))
        (hwf fr (by simp)) (hkey fr (by simp)) (hflag fr (by simp)) hprev
        (by simp [isWordChar])]
      rw [searchShift_skip_sep k hkne hkw (by decide) _ _]
      rw [ih (some ';') (fun x hx => hwf x (List.mem_cons_of_mem fr hx))
        (fun x hx => hkey x (List.mem_cons_of_mem fr hx))
        (fun x hx => hflag x (List.mem_cons_of_mem fr hx)) (by decide)]
      rfl

theorem searchShift_encodeG_found (k : List Char) (hkne : k ≠ [])
    (hkw : ∀ a ∈ k, isWordChar a = true) :
    ∀ (pre : List GFrame) (fr : GFrame) (post : List GFrame) (prev : Option Char),
    (∀ g ∈ pre, WFframe g) → (∀ g ∈ pre, g.key ≠ k) → (∀ g ∈ pre, k ∉ g.flags) →
    WFframe fr → fr.key = k → wordOpt prev = false →
    searchShift k prev (encodeG (pre ++ fr :: post))
      = some ((if pre = [] then 0 else (encodeG pre).length + 1),
              (frameStr fr).length) := by
  intro pre
  induction pre with
  | nil =>
    intro fr post prev _ _ _ hwf hkey hprev
    rw [List.nil_append, if_pos rfl]
    cases post with
    | nil =>
      rw [encodeG_singleton]
      apply searchShift_some
      have : matchLen fr.key prev (frameStr fr ++ [])
          = some (frameStr fr).length :=
        matchLen_at_frame hwf hprev (by simp) (by simp)
      rw [hkey, List.append_nil] at this
      exact this
    | cons q post2 =>
      rw [encodeG_cons fr (q :: post2) (by simp)]
      apply searchShift_some
      have : matchLen fr.key prev (frameStr fr ++ ';' :: encodeG (q :: post2))
          = some (frameStr fr).length :=
        matchLen_at_frame hwf hprev (by simp) (by simp [isWordChar])
      rw [hkey] at this
      exact this
  | cons g pre' ih =>
    intro fr post prev hwf hkey hflag hfwf hfkey hprev
    rw [show (g :: pre') ++ fr :: post = g :: (pre' ++ fr :: post) from rfl]
    rw [encodeG_cons g _ (by simp)]
    rw [searchShift_skip_frame k hkne hkw g prev
      (';' :: encodeG (pre' ++ fr :: post)) (hwf g (by simp)) (hkey g (by simp))
      (hflag g (by simp)) hprev (by simp [isWordChar])]
    rw [searchShift_skip_sep k hkne hkw (by decide) _ _]
    rw [ih fr post (some ';') (fun x hx => hwf x (List.mem_cons_of_mem g hx))
      (fun x hx => hkey x (List.mem_cons_of_mem g hx))
      (fun x hx => hflag x (List.mem_cons_of_mem g hx)) hfwf hfkey (by decide)]
    rw [if_neg (by simp : ¬ (g :: pre') = [])]
    simp only [Option.map_some', Option.some.injEq, Prod.mk.injEq]
    refine ⟨?_, trivial⟩
    cases pre' with
    | nil =>
      rw [if_pos rfl, encodeG_singleton]
      omega
    | cons h2 pre2 =>
      rw [if_neg (by simp : ¬ (h2 :: pre2) = [])]
      rw [encodeG_cons g (h2 :: pre2) (by simp)]
      simp only [List.length_append, List.length_cons]
      omega

theorem head?_append_ne_semi {A X : List Char} (hA : A.head? ≠ some ';')
    (hAne : A ≠ []) : (A ++ X).head? ≠ some ';' := by
  cases A with
  | nil => exact absurd rfl hAne
  | cons c r => simpa using hA

theorem getLast?_semi_cons {E : List Char} (hE : E ≠ []) :
    (';' :: E).getLast? = E.getLast? := by
  rw [show (';' :: E) = [';'] ++ E from rfl,
    List.getLast?_append_of_ne_nil [';'] hE]

theorem clearInSJN_found {s k : List Char} {i len : Nat}
    (h : searchShift k none s = some (i, len)) :
    clearInSJN s k
      = stripLeadSemi (stripTrailSemi (collapseSemi
          (s.take i ++ s.drop (i + len)))) := by
  unfold clearInSJN
  rw [h]

/-- Removal lemma: on a well-formed encoding whose frames before the
first `k`-keyed frame neither have key `k` nor a flag named `k`,
`clearInSJN` removes exactly that frame (with its flags) and stitches the
rest back together. -/
theorem clearInSJN_encodeG (pre : List GFrame) (fr : GFrame)
    (post : List GFrame) (k : List Char)
    (hall : ∀ g ∈ pre ++ fr :: post, WFframe g)
    (hpk : ∀ g ∈ pre, g.key ≠ k) (hpf : ∀ g ∈ pre, k ∉ g.flags)
    (hfk : fr.key = k) :
    clearInSJN (encodeG (pre ++ fr :: post)) k = encodeG (pre ++ post) := by
  have hfwf : WFframe fr := hall fr (by simp)
  have hkne : k ≠ [] := by rw [← hfk]; exact hfwf.1.1
  have hkw : ∀ a ∈ k, isWordChar a = true := by
    intro a ha
    exact keyChar_isWord (hfwf.1.2 a (by rw [hfk]; exact ha))
  have hpreW : ∀ g ∈ pre, WFframe g :=
    fun g hg => hall g (List.mem_append.2 (Or.inl hg))
  have hpostW : ∀ g ∈ post, WFframe g := fun g hg => hall g (by simp [hg])
  have hfound := searchShift_encodeG_found k hkne hkw pre fr post none hpreW
    hpk hpf hfwf hfk (by simp)
  rw [clearInSJN_found hfound]
  cases pre with
  | nil =>
    rw [if_pos rfl]
    simp only [List.nil_append]
    cases post with
    | nil =>
      rw [encodeG_singleton, List.take_zero, Nat.zero_add, List.drop_length]
      rfl
    | cons q post2 =>
      have hE2W : ∀ g ∈ q :: post2, WFframe g :=
        fun g hg => hpostW g hg
      rw [encodeG_cons fr (q :: post2) (by simp), List.take_zero, Nat.zero_add,
        List.drop_left' rfl]
      simp only [List.nil_append]
      rw [collapseSemi_eq_self (noSS_cons_semi (head_encodeG_ne_semi hE2W)
        (noSS_encodeG hE2W))]
      rw [stripTrail_of_ne (by
        rw [getLast?_semi_cons (encodeG_ne_nil (by simp) hE2W)]
        exact getLast_encodeG_ne_semi (by simp) hE2W)]
      exact stripLead_semi _
  | cons p0 pre2 =>
    have hpreW2 : ∀ g ∈ p0 :: pre2, WFframe g := hpreW
    have hpreNE : (p0 :: pre2 : List GFrame) ≠ [] := by simp
    have hEne : encodeG (p0 :: pre2) ≠ [] := encodeG_ne_nil hpreNE hpreW2
    rw [if_neg (by simp)]
    cases post with
    | nil =>
      have hEsplit : encodeG ((p0 :: pre2) ++ fr :: ([] : List GFrame))
          = (encodeG (p0 :: pre2) ++ [';']) ++ frameStr fr := by
        rw [show fr :: ([] : List GFrame) = [fr] from rfl,
          encodeG_append (p0 :: pre2) [fr] hpreNE (by simp), encodeG_singleton]
        simp
      rw [hEsplit, List.take_left' (by simp)]
      rw [show (encodeG (p0 :: pre2)).length + 1 + (frameStr fr).length
          = ((encodeG (p0 :: pre2) ++ [';']) ++ frameStr fr).length from by
        simp
        omega]
      rw [List.drop_length]
      simp only [List.append_nil]
      rw [collapseSemi_eq_self (noSS_concat_semi (noSS_encodeG hpreW2)
        (getLast_encodeG_ne_semi hpreNE hpreW2))]
      rw [stripTrail_concat]
      exact stripLead_of_ne (head_encodeG_ne_semi hpreW2)
    | cons q post2 =>
      have hE2W : ∀ g ∈ q :: post2, WFframe g := fun g hg => hpostW g hg
      have hE2ne : encodeG (q :: post2) ≠ [] := encodeG_ne_nil (by simp) hE2W
      have hEsplit : encodeG ((p0 :: pre2) ++ fr :: q :: post2)
          = (encodeG (p0 :: pre2) ++ [';'])
            ++ (frameStr fr ++ ';' :: encodeG (q :: post2)) := by
        rw [encodeG_append (p0 :: pre2) (fr :: q :: post2) hpreNE (by simp),
          encodeG_cons fr (q :: post2) (by simp)]
        simp
      rw [hEsplit, List.take_left' (by simp)]
      have hdrop : ((encodeG (p0 :: pre2) ++ [';'])
            ++ (frameStr fr ++ ';' :: encodeG (q :: post2))).drop
            ((encodeG (p0 :: pre2)).length + 1 + (frameStr fr).length)
          = ';' :: encodeG (q :: post2) := by
        rw [show (encodeG (p0 :: pre2) ++ [';'])
              ++ (frameStr fr ++ ';' :: encodeG (q :: post2))
            = ((encodeG (p0 :: pre2) ++ [';']) ++ frameStr fr)
              ++ ';' :: encodeG (q :: post2) from by simp]
        rw [List.drop_left' (by simp; omega)]
      rw [hdrop]
      rw [show (encodeG (p0 :: pre2) ++ [';']) ++ ';' :: encodeG (q :: post2)
          = encodeG (p0 :: pre2) ++ ';' :: ';' :: encodeG (q :: post2) from by simp]
      rw [collapse_junction (noSS_encodeG hpreW2)
        (getLast_encodeG_ne_semi hpreNE hpreW2)]
      rw [stripTrail_of_ne (by
        rw [List.getLast?_append_of_ne_nil _
          (by simp : (';' :: encodeG (q :: post2)) ≠ []),
          getLast?_semi_cons hE2ne]
        exact getLast_encodeG_ne_semi (by simp) hE2W)]
      rw [stripLead_of_ne (head?_append_ne_semi
        (head_encodeG_ne_semi hpreW2) hEne)]
      rw [encodeG_append (p0 :: pre2) (q :: post2) hpreNE (by simp)]

theorem sjnToArr_encodeG {L : List GFrame} (h : ∀ fr ∈ L, WFframe fr) :
    sjnToArr (encodeG L) = L.map frameStr := by
  cases L with
  | nil => rfl
  | cons fr rest =>
    unfold sjnToArr
    rw [if_neg (encodeG_ne_nil (by simp) h)]
    unfold encodeG
    apply splitChar_intercalate ';' _ (by simp)
    intro s hs
    rcases List.mem_map.1 hs with ⟨g, hg, rfl⟩
    exact semi_not_mem_frameStr (h g hg)

theorem getGoalStates_encodeG {L : List GFrame} (h : ∀ fr ∈ L, WFframe fr) :
    getGoalStates (encodeG L) = L.map toObj := by
  unfold getGoalStates arrToArrObj
  rw [sjnToArr_encodeG h, List.map_map]
  exact List.map_congr_left (fun g hg => buildArrObj_frameStr (h g hg))

theorem encodeG_length_lt (pre : List GFrame) (fr : GFrame)
    (post : List GFrame) (hfr : WFframe fr) :
    (encodeG (pre ++ post)).length < (encodeG (pre ++ fr :: post)).length := by
  have hfs : 0 < (frameStr fr).length := List.length_pos.2 (frameStr_ne_nil hfr)
  cases hp : pre with
  | nil =>
    cases hq : post with
    | nil =>
      simp only [List.nil_append, List.append_nil, encodeG_singleton]
      simpa [encodeG, List.intercalate, List.intersperse] using hfs
    | cons q post2 =>
      simp only [List.nil_append]
      rw [encodeG_cons fr (q :: post2) (by simp)]
      simp only [List.length_append, List.length_cons]
      omega
  | cons p0 pre2 =>
    cases hq : post with
    | nil =>
      rw [List.append_nil,
        show (p0 :: pre2) ++ fr :: ([] : List GFrame) = (p0 :: pre2) ++ [fr]
          from rfl,
        encodeG_append (p0 :: pre2) [fr] (by simp) (by simp)]
      simp only [List.length_append, List.length_cons]
      omega
    | cons q post2 =>
      rw [encodeG_append (p0 :: pre2) (q :: post2) (by simp) (by simp),
        encodeG_append (p0 :: pre2) (fr :: q :: post2) (by simp) (by simp),
        encodeG_cons fr (q :: post2) (by simp)]
      simp only [List.length_append, List.length_cons]
      omega

/-- Model of the plain values a resolver callback can settle with
(`resolveGoal`, lines 292-302): `result == true || result == undefined`
holds for `rTrue` and `rUndef` and fails for `rFalse` and `rOther`. -/
inductive RRes
  | rTrue
  | rUndef
  | rFalse
  | rOther
  deriving DecidableEq, Repr

/-- Effect of `resolveGoal` on the session's goal slot: a result that is
loosely equal to `true` or to `undefined` triggers `removeGoal`
(= `ConversationEngine.clearGoal`); anything else leaves it alone. -/
def resolveGoalSess (result : RRes) (sess : List Char) (goalName : List Char) :
    List Char :=
  match result with
  | .rTrue => clearGoal sess goalName
  | .rUndef => clearGoal sess goalName
  | _ => sess

/-! ## Claim C5: ShortJSON removal -/

/-- C5 (amended).  For every well-formed encoded frame list in which the
frames before the first frame keyed `k` neither have key `k` nor carry a
flag named `k`, `remove(k)` (`clearInSJN`) deletes exactly that first
`k`-keyed frame together with its flags, and all other frames remain, in
their original order, with their flags intact.  (As stated the claim also
covers lists where `k` occurs among an earlier frame's flag names; there
the regex hits the flag first and the claim fails — see the
counterexample.) -/
theorem C5_clearInSJN_removes_first (pre : List GFrame) (fr : GFrame)
    (post : List GFrame) (k : List Char)
    (hall : ∀ g ∈ pre ++ fr :: post, WFframe g)
    (hpk : ∀ g ∈ pre, g.key ≠ k) (hpf : ∀ g ∈ pre, k ∉ g.flags)
    (hfk : fr.key = k) :
    clearInSJN (encodeG (pre ++ fr :: post)) k = encodeG (pre ++ post)
    ∧ getGoalStates (clearInSJN (encodeG (pre ++ fr :: post)) k)
        = (pre ++ post).map toObj := by
  have hmain := clearInSJN_encodeG pre fr post k hall hpk hpf hfk
  refine ⟨hmain, ?_⟩
  rw [hmain]
  apply getGoalStates_encodeG
  intro g hg
  rcases List.mem_append.1 hg with h1 | h1
  · exact hall g (List.mem_append.2 (Or.inl h1))
  · exact hall g (by simp [h1])

theorem matchLen_none_not_prefix {k : List Char} {prev : Option Char}
    {s : List Char}
    (h : k.isPrefixOf s = false) : matchLen k prev s = none := by
  unfold matchLen
  rw [if_neg]
  rintro ⟨-, h2⟩
  rw [h] at h2
  exact Bool.noConfusion h2

/-- C5 counterexample: on the encoding `A:k;k` (frame `A` carrying flag
`k`, then a frame keyed `k`) the claim says `remove(k)` yields `A:k`
(delete the first — and only — frame keyed `k`, keep `A` with its flags
intact), but the regex matches the flag `k` of the earlier frame: the
code returns `A:;k`, in which the frame keyed `k` is still present and
frame `A` lost its flag. -/
theorem C5_counterexample :
    clearInSJN ['A', ':', 'k', ';', 'k'] ['k'] = ['A', ':', ';', 'k']
    ∧ ['A', ':', ';', 'k'] ≠ ['A', ':', 'k']
    ∧ arrToArrObjKey (sjnToArr ['A', ':', ';', 'k'])
        = [some (.str ['A']), some (.str ['k'])] := by
  refine ⟨?_, by decide, by decide⟩
  have h0 : matchLen ['k'] none ['A', ':', 'k', ';', 'k'] = none :=
    matchLen_none_not_prefix (by decide)
  have h1 : matchLen ['k'] (some 'A') [':', 'k', ';', 'k'] = none :=
    matchLen_none_not_prefix (by decide)
  have h2 : matchLen ['k'] (some ':') ['k', ';', 'k'] = some 1 := by
    unfold matchLen
    rw [if_pos ⟨by decide, by decide⟩]
    rw [show ((['k', ';', 'k'] : List Char).drop (['k'] : List Char).length)
        = [';', 'k'] from rfl]
    rw [show (if (['k'] : List Char) = [] then (some ':')
        else (['k'] : List Char).getLast?) = some 'k' from rfl]
    rw [starMatch_not_colon (by decide)]
    rw [if_pos (by decide)]
    rfl
  have hsearch : searchShift ['k'] none ['A', ':', 'k', ';', 'k'] = some (2, 1) := by
    rw [searchShift_cons_none h0, searchShift_cons_none h1, searchShift_some h2]
    rfl
  rw [clearInSJN_found hsearch]
  decide

/-- Witness for C5 at a concrete stack `A:x;k:queried;B`. -/
theorem C5_witness :
    (∀ g ∈ [GFrame.mk ['A'] [['x']], GFrame.mk ['k'] [queriedProp],
        GFrame.mk ['B'] []], WFframe g)
    ∧ clearInSJN (encodeG ([GFrame.mk ['A'] [['x']]]
          ++ GFrame.mk ['k'] [queriedProp] :: [GFrame.mk ['B'] []])) ['k']
      = encodeG ([GFrame.mk ['A'] [['x']]] ++ [GFrame.mk ['B'] []]) :=
  ⟨by decide,
   (C5_clearInSJN_removes_first [GFrame.mk ['A'] [['x']]]
     (GFrame.mk ['k'] [queriedProp]) [GFrame.mk ['B'] []] ['k']
     (by decide) (by decide) (by decide) rfl).1⟩

/-! ## Claim C3: resolver success and the goal stack -/

/-- C3 (amended).  When the loop invokes a goal's resolver for a frame
with key `k` on a well-formed stack whose frames before the first
`k`-keyed frame neither have key `k` nor carry a flag named `k`: a
result of `true` or `undefined` removes exactly one frame — the *first*
frame keyed `k` (which is the invoked frame only when the invoked frame
is that first occurrence) — and a result of `false` (or any other
non-success value) leaves the stack unchanged. -/
theorem C3_resolver_success_removes (pre : List GFrame) (fr : GFrame)
    (post : List GFrame) (k : List Char) (result : RRes)
    (hall : ∀ g ∈ pre ++ fr :: post, WFframe g)
    (hpk : ∀ g ∈ pre, g.key ≠ k) (hpf : ∀ g ∈ pre, k ∉ g.flags)
    (hfk : fr.key = k) :
    ((result = RRes.rTrue ∨ result = RRes.rUndef) →
      resolveGoalSess result (encodeG (pre ++ fr :: post)) k
        = encodeG (pre ++ post)
      ∧ (getGoalStates (resolveGoalSess result (encodeG (pre ++ fr :: post)) k)).length + 1
        = (getGoalStates (encodeG (pre ++ fr :: post))).length)
    ∧ ((result = RRes.rFalse ∨ result = RRes.rOther) →
      resolveGoalSess result (encodeG (pre ++ fr :: post)) k
        = encodeG (pre ++ fr :: post)) := by
  have hfwf : WFframe fr := hall fr (by simp)
  have hkne : k ≠ [] := by rw [← hfk]; exact hfwf.1.1
  have hmain := clearInSJN_encodeG pre fr post k hall hpk hpf hfk
  have hlt := encodeG_length_lt pre fr post hfwf
  have hclearGoal : clearGoal (encodeG (pre ++ fr :: post)) k
      = encodeG (pre ++ post) := by
    unfold clearGoal
    rw [if_neg hkne, hmain, if_neg (by omega)]
  have hallsub : ∀ g ∈ pre ++ post, WFframe g := by
    intro g hg
    rcases List.mem_append.1 hg with h1 | h1
    · exact hall g (List.mem_append.2 (Or.inl h1))
    · exact hall g (by simp [h1])
  constructor
  · rintro (rfl | rfl) <;>
    · refine ⟨hclearGoal, ?_⟩
      show (getGoalStates (clearGoal _ _)).length + 1 = _
      rw [hclearGoal, getGoalStates_encodeG hallsub, getGoalStates_encodeG hall]
      simp only [List.length_map, List.length_append, List.length_cons]
      omega
  · rintro (rfl | rfl) <;> rfl

/-- C3 counterexample: stack `b:queried;x;b`, resolver invoked for the
frame at depth 0 (the topmost frame, the bare `b`), returning success.
The claim says the stack afterwards is `b:queried;x` (one fewer frame,
the invoked frame gone).  The code removes the *first* regex match,
`b:queried`, leaving `x;b`: the invoked bare `b` frame is still on the
stack. -/
theorem C3_counterexample :
    resolveGoalSess RRes.rTrue
        ['b', ':', 'q', 'u', 'e', 'r', 'i', 'e', 'd', ';', 'x', ';', 'b'] ['b']
      = ['x', ';', 'b']
    ∧ mostRecentGoalStates
        ['b', ':', 'q', 'u', 'e', 'r', 'i', 'e', 'd', ';', 'x', ';', 'b'] 0
      = some [(keyProp, JSVal.str ['b'])]
    ∧ ['x', ';', 'b']
      ≠ ['b', ':', 'q', 'u', 'e', 'r', 'i', 'e', 'd', ';', 'x'] := by
  refine ⟨?_, by decide, by decide⟩
  have hml : matchLen ['b'] none
      ['b', ':', 'q', 'u', 'e', 'r', 'i', 'e', 'd', ';', 'x', ';', 'b']
      = some 9 := by
    unfold matchLen
    rw [if_pos ⟨by decide, by decide⟩]
    rw [show ((['b', ':', 'q', 'u', 'e', 'r', 'i', 'e', 'd', ';', 'x', ';', 'b'] :
        List Char).drop (['b'] : List Char).length)
        = [':', 'q', 'u', 'e', 'r', 'i', 'e', 'd', ';', 'x', ';', 'b'] from rfl]
    rw [show (if (['b'] : List Char) = [] then (none : Option Char)
        else (['b'] : List Char).getLast?) = some 'b' from rfl]
    rw [starMatch_colon]
    have hrun : lowerRun ['q', 'u', 'e', 'r', 'i', 'e', 'd', ';', 'x', ';', 'b']
        = 7 := by decide
    rw [hrun]
    have hrt : repTry ['q', 'u', 'e', 'r', 'i', 'e', 'd', ';', 'x', ';', 'b'] 7
        = some 8 := by
      have hsm : starMatch (if (7 : Nat) = 0 then (some ':')
          else (['q', 'u', 'e', 'r', 'i', 'e', 'd', ';', 'x', ';', 'b'] :
            List Char)[7 - 1]?)
          ((['q', 'u', 'e', 'r', 'i', 'e', 'd', ';', 'x', ';', 'b'] :
            List Char).drop 7) = some 0 := by
        rw [show (if (7 : Nat) = 0 then (some ':')
            else (['q', 'u', 'e', 'r', 'i', 'e', 'd', ';', 'x', ';', 'b'] :
              List Char)[7 - 1]?) = some 'd' from by decide]
        rw [show ((['q', 'u', 'e', 'r', 'i', 'e', 'd', ';', 'x', ';', 'b'] :
            List Char).drop 7) = [';', 'x', ';', 'b'] from rfl]
        rw [starMatch_not_colon (by decide)]
        rw [if_pos (by decide)]
      have := repTry_some hsm
      simpa using this
    rw [hrt]
    rfl
  have hsearch : searchShift ['b'] none
      ['b', ':', 'q', 'u', 'e', 'r', 'i', 'e', 'd', ';', 'x', ';', 'b']
      = some (0, 9) := searchShift_some hml
  have hclear : clearInSJN
      ['b', ':', 'q', 'u', 'e', 'r', 'i', 'e', 'd', ';', 'x', ';', 'b'] ['b']
      = ['x', ';', 'b'] := by
    rw [clearInSJN_found hsearch]
    decide
  show clearGoal _ _ = _
  unfold clearGoal
  rw [if_neg (by decide), hclear, if_neg (by decide)]

/-- Witness for C3 at a concrete stack `a;k` with the resolver invoked
for the top frame `k` returning `true`, and at the same stack with the
resolver returning `false`. -/
theorem C3_witness :
    (∀ g ∈ [GFrame.mk ['a'] []] ++ GFrame.mk ['k'] [] :: ([] : List GFrame),
        WFframe g)
    ∧ resolveGoalSess RRes.rTrue
        (encodeG ([GFrame.mk ['a'] []] ++ GFrame.mk ['k'] [] :: [])) ['k']
      = encodeG ([GFrame.mk ['a'] []] ++ [])
    ∧ resolveGoalSess RRes.rFalse
        (encodeG ([GFrame.mk ['a'] []] ++ GFrame.mk ['k'] [] :: [])) ['k']
      = encodeG ([GFrame.mk ['a'] []] ++ GFrame.mk ['k'] [] :: []) :=
  ⟨by decide,
   ((C3_resolver_success_removes [GFrame.mk ['a'] []] (GFrame.mk ['k'] [])
      [] ['k'] RRes.rTrue (by decide) (by decide) (by decide) rfl).1
      (Or.inl rfl)).1,
   (C3_resolver_success_removes [GFrame.mk ['a'] []] (GFrame.mk ['k'] [])
      [] ['k'] RRes.rFalse (by decide) (by decide) (by decide) rfl).2
      (Or.inl rfl)⟩

/-! ## OutputMgr (lines 94-171)

The output manager's per-turn state.  `asked` accumulates `0.34` per
prompt and `1` per ask; these are exact decimal increments, embedded
scaled by 100 (`askedS = 34`, `100`), so the JavaScript comparisons
`asked < 1` and `asked < 2` become `askedS < 100` and `askedS < 200`
(every reachable float value of `asked` is on the same side of 1 and 2
as its scaled decimal counterpart).  `_pickAndInterpolate` (random pick
from a response list plus `{{var}}` substitution) is abstracted by
passing the already-picked, already-interpolated fragment. -/

structure OMState where
  spokenRate : Option (List Char)
  askedS : Nat
  sayQueue : List (List Char)
  askQueue : List (List Char)
  keepConversationRunning : Bool
  deriving DecidableEq, Repr

/-- The SSML pause `pauseStr` (line 25). -/
def pauseStr : List Char := " <break time=\"500ms\"/> ".toList

/-- `OutputMgr.initialize` (lines 108-115). -/
def OMState.initMgr (st : OMState) : OMState :=
  { st with
    askedS := 0
    sayQueue := []
    askQueue := []
    keepConversationRunning := true }

/-- `OutputMgr.say` (lines 122-125). -/
def OMState.say (st : OMState) (s : List Char) (quick : Bool) : OMState :=
  if st.sayQueue.length > 0 ∧ ¬ quick then
    { st with sayQueue := st.sayQueue ++ [pauseStr, s] }
  else
    { st with sayQueue := st.sayQueue ++ [s] }

/-- `OutputMgr.prompt` (lines 126-129): push the fragment, `asked += 0.34`. -/
def OMState.prompt (st : OMState) (s : List Char) : OMState :=
  { st with
    askQueue := st.askQueue ++ [s]
    askedS := st.askedS + 34 }

/-- `OutputMgr.ask` (lines 130-133): push the fragment, `asked += 1`. -/
def OMState.ask (st : OMState) (s : List Char) : OMState :=
  { st with
    askQueue := st.askQueue ++ [s]
    askedS := st.askedS + 100 }

/-- The say-buffer fold of `sendFromQueue` (lines 138-143). -/
def buildSay (q : List (List Char)) : List Char :=
  q.foldl (fun ob s => if ob.length = 0 then s else ob ++ ' ' :: s) []

/-- The ask-buffer fold of `sendFromQueue` (lines 144-155), with the
running index and `askQueue.length` made explicit. -/
def buildAsk (total : Nat) (ndx : Nat) (ob : List Char) :
    List (List Char) → List Char
  | [] => ob
  | s :: rest =>
    buildAsk total (ndx + 1)
      (if ob.length = 0 then s
       else if ndx = 0 then ob ++ pauseStr ++ s
       else if ndx = total - 1 then ob ++ ' ' :: 'o' :: 'r' :: ' ' :: s
       else ob ++ ',' :: ' ' :: s)
      rest

/-- The `<prosody>` wrap (line 157); `spokenRate` is truthy iff it is a
non-empty string. -/
def prosodyWrap (rate : Option (List Char)) (buf : List Char) : List Char :=
  match rate with
  | none => buf
  | some r =>
    if r = [] then buf
    else "<prosody rate=\"".toList ++ r ++ "\">".toList
      ++ buf ++ "</prosody>".toList

/-- The global replacement `outBuffer.replace(/\s&\s/g, ' and ')`
(line 158): scan left to right, on a whitespace-`&`-whitespace triple
emit ` and ` and continue after it, otherwise advance one character. -/
def ampReplace : List Char → List Char
  | [] => []
  | [a] => [a]
  | [a, b] => [a, b]
  | a :: b :: c :: rest =>
    if a.isWhitespace ∧ b = '&' ∧ c.isWhitespace then
      ' ' :: 'a' :: 'n' :: 'd' :: ' ' :: ampReplace rest
    else a :: ampReplace (b :: c :: rest)

/-- Lines 136-137 of `sendFromQueue`: a potential response is appended to
the say-queue before composition. -/
def sayWith (q : List (List Char)) : Option (List Char) → List (List Char)
  | some s => q ++ [s]
  | none => q

/-- `OutputMgr.sendFromQueue` (lines 134-166): returns the composed
`outBuffer` (what is handed to `platReq.say` when non-empty). -/
def sendFromQueue (st : OMState) (potResponse : Option (List Char)) :
    List Char :=
  ampReplace (prosodyWrap st.spokenRate
    (buildAsk st.askQueue.length 0
      (buildSay (sayWith st.sayQueue potResponse))
      st.askQueue))

/-! ## Claim C7: ask-buffer composition -/

/-- Composition of the ask fragments after the first: `, ` before the
middle fragments, ` or ` before the last. -/
def askTail : List (List Char) → List Char
  | [] => []
  | [q] => ' ' :: 'o' :: 'r' :: ' ' :: q
  | q :: rest => ',' :: ' ' :: (q ++ askTail rest)

theorem buildSay_foldl_ne_nil (q : List (List Char)) (ob : List Char)
    (h : ob ≠ []) :
    q.foldl (fun ob s => if ob.length = 0 then s else ob ++ ' ' :: s) ob ≠ [] := by
  induction q generalizing ob with
  | nil => exact h
  | cons s rest ih =>
    simp only [List.foldl_cons]
    apply ih
    rw [if_neg (by simpa [List.length_eq_zero] using h)]
    simp

theorem buildSay_ne_nil {q : List (List Char)} (hne : q ≠ [])
    (h : ∀ s ∈ q, s ≠ []) : buildSay q ≠ [] := by
  cases q with
  | nil => exact absurd rfl hne
  | cons s rest =>
    unfold buildSay
    simp only [List.foldl_cons]
    have hstep : (if ([] : List Char).length = 0 then s else [] ++ ' ' :: s)
        = s := by simp
    rw [hstep]
    exact buildSay_foldl_ne_nil rest s (h s (by simp))

theorem buildAsk_cons (total ndx : Nat) (ob s : List Char)
    (rest : List (List Char)) :
    buildAsk total ndx ob (s :: rest)
      = buildAsk total (ndx + 1)
          (if ob.length = 0 then s
           else if ndx = 0 then ob ++ pauseStr ++ s
           else if ndx = total - 1 then ob ++ ' ' :: 'o' :: 'r' :: ' ' :: s
           else ob ++ ',' :: ' ' :: s) rest := rfl

theorem buildAsk_tail : ∀ (qs : List (List Char)) (total ndx : Nat)
    (ob : List Char), ob ≠ [] → 1 ≤ ndx → ndx + qs.length = total →
    buildAsk total ndx ob qs = ob ++ askTail qs := by
  intro qs
  induction qs with
  | nil =>
    intro total ndx ob hob _ _
    simp [buildAsk, askTail]
  | cons q rest ih =>
    intro total ndx ob hob hndx hsum
    have hob0 : ¬ ob.length = 0 := by
      simpa [List.length_eq_zero] using hob
    have hndx0 : ¬ ndx = 0 := by omega
    rw [buildAsk_cons, if_neg hob0, if_neg hndx0]
    cases rest with
    | nil =>
      have hlast : ndx = total - 1 := by
        simp only [List.length_cons, List.length_nil] at hsum
        omega
      rw [if_pos hlast]
      simp [buildAsk, askTail]
    | cons r rest2 =>
      have hnotlast : ¬ ndx = total - 1 := by
        simp only [List.length_cons] at hsum
        omega
      rw [if_neg hnotlast]
      rw [ih total (ndx + 1) _ (by simp) (by omega)
        (by simp only [List.length_cons] at hsum ⊢; omega)]
      simp [askTail, List.append_assoc]

theorem amp_not_mem_foldSay {q : List (List Char)} {ob : List Char}
    (hob : '&' ∉ ob) (h : ∀ s ∈ q, '&' ∉ s) :
    '&' ∉ q.foldl (fun ob s => if ob.length = 0 then s else ob ++ ' ' :: s) ob := by
  induction q generalizing ob with
  | nil => exact hob
  | cons s rest ih =>
    simp only [List.foldl_cons]
    apply ih _ (fun x hx => h x (List.mem_cons_of_mem s hx))
    by_cases hl : ob.length = 0
    · rw [if_pos hl]
      exact h s (by simp)
    · rw [if_neg hl]
      simp only [List.mem_append, List.mem_cons, not_or]
      exact ⟨hob, by decide, h s (by simp)⟩

theorem amp_not_mem_buildSay {q : List (List Char)}
    (h : ∀ s ∈ q, '&' ∉ s) : '&' ∉ buildSay q :=
  amp_not_mem_foldSay (by simp) h

theorem amp_not_mem_askTail {qs : List (List Char)}
    (h : ∀ q ∈ qs, '&' ∉ q) : '&' ∉ askTail qs := by
  induction qs with
  | nil => simp [askTail]
  | cons q rest ih =>
    cases rest with
    | nil =>
      simp only [askTail, List.mem_cons, not_or]
      exact ⟨by decide, by decide, by decide, by decide, h q (by simp)⟩
    | cons r rest2 =>
      show '&' ∉ ',' :: ' ' :: (q ++ askTail (r :: rest2))
      simp only [List.mem_cons, List.mem_append, not_or]
      exact ⟨by decide, by decide,
        h q (by simp), ih (fun x hx => h x (List.mem_cons_of_mem q hx))⟩

theorem amp_id {s : List Char} (h : '&' ∉ s) : ampReplace s = s := by
  induction s with
  | nil => rfl
  | cons a s ih =>
    cases s with
    | nil => rfl
    | cons b s2 =>
      cases s2 with
      | nil => rfl
      | cons c s3 =>
        have hb : b ≠ '&' := by
          intro hbc
          exact h (by rw [hbc]; simp)
        show ampReplace (a :: b :: c :: s3) = a :: b :: c :: s3
        simp only [ampReplace]
        rw [if_neg (fun hcon => hb hcon.2.1)]
        rw [ih (fun hm => h (List.mem_cons_of_mem a hm))]

/-- C7 (amended).  On a flush with a non-empty ask-buffer `q1 :: qs`
(with `&`-free fragments and no prosody rate), the composed output is the
say-composition followed by a 500 ms pause and `q1`, then `q2` ... with
`, ` and finally ` or qn` — except that when the say-composition is empty,
`q1` starts the output and no pause is emitted (the claim as stated
requires the pause before `q1` unconditionally; see the counterexample). -/
theorem C7_ask_buffer_composition (st : OMState) (q1 : List Char)
    (qs : List (List Char))
    (hask : st.askQueue = q1 :: qs)
    (hrate : st.spokenRate = none)
    (hsayne : ∀ s ∈ st.sayQueue, s ≠ [])
    (hq1 : q1 ≠ [])
    (hsayamp : ∀ s ∈ st.sayQueue, '&' ∉ s)
    (hq1amp : '&' ∉ q1) (hqsamp : ∀ q ∈ qs, '&' ∉ q) :
    sendFromQueue st none
      = if st.sayQueue = [] then q1 ++ askTail qs
        else buildSay st.sayQueue ++ pauseStr ++ q1 ++ askTail qs := by
  unfold sendFromQueue
  rw [hrate, hask]
  have hwrap : ∀ buf : List Char, prosodyWrap none buf = buf := fun _ => rfl
  have hpot : sayWith st.sayQueue none = st.sayQueue := rfl
  rw [hwrap, hpot]
  have h3 : '&' ∉ askTail qs := amp_not_mem_askTail hqsamp
  by_cases hsq : st.sayQueue = []
  · rw [if_pos hsq, hsq]
    rw [buildAsk_cons]
    rw [if_pos (by simp [buildSay])]
    rw [buildAsk_tail qs _ 1 q1 hq1 (by omega) (by simp; omega)]
    exact amp_id (by
      simp only [List.mem_append, not_or]
      exact ⟨hq1amp, h3⟩)
  · rw [if_neg hsq]
    have hbs : buildSay st.sayQueue ≠ [] := buildSay_ne_nil hsq hsayne
    rw [buildAsk_cons]
    rw [if_neg (by simpa [List.length_eq_zero] using hbs), if_pos rfl]
    rw [buildAsk_tail qs _ 1 _ (by simp; exact fun _ _ => hq1) (by omega)
      (by simp; omega)]
    have h1 : '&' ∉ buildSay st.sayQueue := amp_not_mem_buildSay hsayamp
    have hall : '&' ∉ buildSay st.sayQueue ++ pauseStr ++ q1 ++ askTail qs := by
      intro hm
      simp only [List.mem_append] at hm
      rcases hm with ((hm | hm) | hm) | hm
      · exact h1 hm
      · exact absurd hm (by decide)
      · exact hq1amp hm
      · exact h3 hm
    rw [amp_id hall]

/-- C7 counterexample: with an empty say-buffer and ask fragments
`a`, `b`, the output is `a or b` with no 500 ms pause anywhere, although
the claim requires the first ask fragment to be preceded by the pause. -/
theorem C7_counterexample :
    sendFromQueue (OMState.mk none 0 [] [['a'], ['b']] true) none
      = ['a', ' ', 'o', 'r', ' ', 'b']
    ∧ ¬ pauseStr <:+: sendFromQueue (OMState.mk none 0 [] [['a'], ['b']] true) none := by
  refine ⟨by decide, by decide⟩

/-- Witness for C7: non-empty say-buffer `hi`, ask fragments `a, b, c`. -/
theorem C7_witness :
    sendFromQueue (OMState.mk none 0 [['h', 'i']] [['a'], ['b'], ['c']] true) none
      = buildSay [['h', 'i']] ++ pauseStr ++ ['a'] ++ askTail [['b'], ['c']] := by
  have := C7_ask_buffer_composition
    (OMState.mk none 0 [['h', 'i']] [['a'], ['b'], ['c']] true)
    ['a'] [['b'], ['c']] rfl rfl (by decide) (by decide) (by decide)
    (by decide) (by decide)
  simpa using this

/-! ## Claims C2 and C4: the `_followGoals` loop

The loop state (lines 314-321) and loop body (lines 321-363), with the
output manager's `asked` counter scaled by 100 (`askedS`), so the guard
`asked < 1` reads `askedS < 100`, `ask`'s `+= 1` reads `+100`, and
`prompt`'s `+= 0.34` reads `+34`.  Two branches of the body are dead and
are modelled as such: `response.goalStateChanged` is assigned only
`false` (line 323) and never `true` anywhere in the engine, so the
reset branch never fires; and `goalWithState == lastGoalWithState`
(line 328) compares object references while `topGoalWithState` decodes a
fresh object on every call, so the comparison is always false. -/

theorem count_collapseSemi_le (s : List Char) :
    (collapseSemi s).count ';' ≤ s.count ';' := by
  induction s with
  | nil => exact le_refl _
  | cons c s ih =>
    cases s with
    | nil => exact le_refl _
    | cons d rest =>
      show (collapseSemi (c :: d :: rest)).count ';' ≤ _
      simp only [collapseSemi]
      by_cases h : c = ';' ∧ d = ';'
      · rw [if_pos h]
        obtain ⟨hc, hd⟩ := h
        subst hc
        subst hd
        simp only [List.count_cons_self]
        omega
      · rw [if_neg h]
        rw [List.count_cons ';' c (collapseSemi (d :: rest)),
          List.count_cons ';' c (d :: rest)]
        exact Nat.add_le_add_right ih _

theorem count_stripTrailSemi_le (s : List Char) :
    (stripTrailSemi s).count ';' ≤ s.count ';' := by
  unfold stripTrailSemi
  by_cases h : s.getLast? = some ';'
  · rw [if_pos h]
    exact List.Sublist.count_le (List.dropLast_sublist s) _
  · rw [if_neg h]

theorem count_stripLeadSemi_le (s : List Char) :
    (stripLeadSemi s).count ';' ≤ s.count ';' := by
  cases s with
  | nil => exact le_refl _
  | cons c rest =>
    show (if c = ';' then rest else c :: rest).count ';' ≤ _
    by_cases h : c = ';'
    · rw [if_pos h]
      subst h
      simp only [List.count_cons_self]
      omega
    · rw [if_neg h]

theorem count_takeDrop_le (s : List Char) (p1 p2 : Nat) :
    (s.take p1 ++ s.drop (p1 + p2)).count ';' ≤ s.count ';' := by
  have heq : (s.take (p1 + p2)).take p1 = s.take p1 := by
    rw [List.take_take, Nat.min_eq_left (Nat.le_add_right _ _)]
  have h1 : (s.take p1).count ';' ≤ (s.take (p1 + p2)).count ';' := by
    rw [← heq]
    exact List.Sublist.count_le (List.take_sublist _ _) _
  have h2 : (s.take (p1 + p2)).count ';' + (s.drop (p1 + p2)).count ';'
      = s.count ';' := by
    rw [← List.count_append, List.take_append_drop]
  rw [List.count_append]
  omega

theorem clearInSJN_count_le (sess k : List Char) :
    (clearInSJN sess k).count ';' ≤ sess.count ';' := by
  unfold clearInSJN
  refine le_trans (count_stripLeadSemi_le _)
    (le_trans (count_stripTrailSemi_le _)
      (le_trans (count_collapseSemi_le _) ?_))
  cases h : searchShift k none sess with
  | none => exact le_refl _
  | some p => exact count_takeDrop_le sess p.1 p.2

theorem clearInSJN_nil (k : List Char) : clearInSJN [] k = [] := by
  unfold clearInSJN
  cases h : searchShift k none [] <;>
    simp [collapseSemi, stripTrailSemi, stripLeadSemi, List.take_nil,
      List.drop_nil]

theorem getGoalStates_length_eq (sess : List Char) :
    (getGoalStates sess).length = if sess = [] then 0 else sess.count ';' + 1 := by
  unfold getGoalStates arrToArrObj sjnToArr
  by_cases h : sess = []
  · rw [if_pos h, if_pos h]
    simp
  · rw [if_neg h, if_neg h]
    simp [length_splitChar]

theorem clearGoal_len_le (sess k : List Char) :
    (getGoalStates (clearGoal sess k)).length ≤ (getGoalStates sess).length := by
  unfold clearGoal
  by_cases h1 : k = []
  · rw [if_pos h1]
  · rw [if_neg h1]
    by_cases h2 : sess.length = (clearInSJN sess k).length
    · rw [if_pos h2]
    · rw [if_neg h2]
      rw [getGoalStates_length_eq, getGoalStates_length_eq]
      by_cases hs : sess = []
      · subst hs
        rw [clearInSJN_nil]
      · rw [if_neg hs]
        by_cases ht : clearInSJN sess k = []
        · rw [if_pos ht]
          omega
        · rw [if_neg ht]
          have := clearInSJN_count_le sess k
          omega

/-- Every property name and string value of the object is free of the
frame separator `;`. -/
def objNoSemi (o : JSObj) : Prop :=
  ∀ p ∈ o, ';' ∉ p.1 ∧ ';' ∉ jsToStr p.2

theorem objSet_noSemi {o : JSObj} {k : List Char} {v : JSVal}
    (ho : objNoSemi o) (hk : ';' ∉ k) (hv : ';' ∉ jsToStr v) :
    objNoSemi (objSet o k v) := by
  unfold objSet
  split
  · intro p hp
    rcases List.mem_map.1 hp with ⟨q, hq, hpq⟩
    by_cases hqk : q.1 = k
    · rw [if_pos hqk] at hpq
      rw [← hpq]
      exact ⟨hk, hv⟩
    · rw [if_neg hqk] at hpq
      rw [← hpq]
      exact ho q hq
  · intro p hp
    rcases List.mem_append.1 hp with h | h
    · exact ho p h
    · simp only [List.mem_singleton] at h
      rw [h]
      exact ⟨hk, hv⟩

theorem mem_of_mem_splitChar {c : Char} {s : List Char} :
    ∀ x ∈ splitChar c s, ∀ a ∈ x, a ∈ s := by
  induction s with
  | nil => simp [splitChar]
  | cons b s ih =>
    simp only [splitChar]
    cases hs : splitChar c s with
    | nil => exact absurd hs (splitChar_ne_nil c s)
    | cons y ys =>
      rw [hs] at ih
      by_cases hbc : b = c
      · subst hbc
        simp only [if_pos rfl]
        intro x hx a ha
        rcases List.mem_cons.1 hx with h1 | h1
        · rw [h1] at ha
          simp at ha
        · exact List.mem_cons_of_mem _ (ih x h1 a ha)
      · simp only [if_neg hbc]
        intro x hx a ha
        rcases List.mem_cons.1 hx with h1 | h1
        · rw [h1] at ha
          rcases List.mem_cons.1 ha with h2 | h2
          · rw [h2]
            simp
          · exact List.mem_cons_of_mem _ (ih y (by simp) a h2)
        · exact List.mem_cons_of_mem _ (ih x (List.mem_cons_of_mem y h1) a ha)

theorem snd_mem_of_mem_enumFrom {α : Type} :
    ∀ (l : List α) (i : Nat) (p : Nat × α), p ∈ l.enumFrom i → p.2 ∈ l := by
  intro l
  induction l with
  | nil =>
    intro i p h
    simp [List.enumFrom] at h
  | cons a l ih =>
    intro i p h
    simp only [List.enumFrom] at h
    rcases List.mem_cons.1 h with h1 | h1
    · rw [h1]
      simp
    · exact List.mem_cons_of_mem a (ih (i + 1) p h1)

theorem foldl_buildArrObj_noSemi :
    ∀ (l : List (Nat × List Char)) (o : JSObj), objNoSemi o →
      (∀ p ∈ l, ';' ∉ p.2) →
      objNoSemi (l.foldl (fun obj p =>
        if p.1 = 0 then objSet obj keyProp (JSVal.str p.2)
        else objSet obj p.2 (JSVal.bool true)) o) := by
  intro l
  induction l with
  | nil =>
    intro o ho _
    exact ho
  | cons p l ih =>
    intro o ho hl
    simp only [List.foldl_cons]
    apply ih
    · by_cases hp : p.1 = 0
      · rw [if_pos hp]
        exact objSet_noSemi ho (by decide) (hl p (by simp))
      · rw [if_neg hp]
        exact objSet_noSemi ho (hl p (by simp)) (by decide)
    · exact fun q hq => hl q (List.mem_cons_of_mem p hq)

theorem buildArrObj_noSemi {item : List Char} (h : ';' ∉ item) :
    objNoSemi (buildArrObj item) := by
  unfold buildArrObj
  apply foldl_buildArrObj_noSemi
  · intro p hp
    simp at hp
  · intro p hp hmem
    exact h (mem_of_mem_splitChar p.2
      (snd_mem_of_mem_enumFrom _ 0 p hp) ';' hmem)

theorem getGoalStates_noSemi (sess : List Char) :
    ∀ o ∈ getGoalStates sess, objNoSemi o := by
  intro o ho
  unfold getGoalStates arrToArrObj at ho
  rcases List.mem_map.1 ho with ⟨item, hitem, hoi⟩
  rw [← hoi]
  apply buildArrObj_noSemi
  unfold sjnToArr at hitem
  by_cases hs : sess = []
  · rw [if_pos hs] at hitem
    simp at hitem
  · rw [if_neg hs] at hitem
    exact mem_splitChar_not_mem item hitem

theorem noSemi_jsJoinStr {v : JSVal} (h : ';' ∉ jsToStr v) :
    ';' ∉ jsJoinStr v := by
  cases v with
  | undef => simp [jsJoinStr]
  | str s => exact h
  | bool b => cases b <;> exact h

theorem foldl_buildArrItem_noSemi :
    ∀ (l : JSObj) (acc : JSVal),
      (∀ p ∈ l, ';' ∉ p.1 ∧ ';' ∉ jsToStr p.2) → ';' ∉ jsToStr acc →
      ';' ∉ jsToStr (l.foldl (fun acc p =>
        if p.1 = keyProp then acc
        else if jsTruthy p.2 then jsConcatV acc (':' :: p.1) else acc) acc) := by
  intro l
  induction l with
  | nil =>
    intro acc _ ha
    exact ha
  | cons p l ih =>
    intro acc hl ha
    simp only [List.foldl_cons]
    apply ih _ (fun q hq => hl q (List.mem_cons_of_mem p hq))
    by_cases h1 : p.1 = keyProp
    · rw [if_pos h1]
      exact ha
    · rw [if_neg h1]
      by_cases h2 : jsTruthy p.2 = true
      · rw [if_pos h2]
        show ';' ∉ jsToStr acc ++ ':' :: p.1
        simp only [List.mem_append, List.mem_cons, not_or]
        exact ⟨ha, by decide, (hl p (by simp)).1⟩
      · rw [if_neg h2]
        exact ha

theorem buildArrItem_noSemi {o : JSObj} (ho : objNoSemi o) :
    ';' ∉ jsJoinStr (buildArrItem o) := by
  apply noSemi_jsJoinStr
  unfold buildArrItem
  apply foldl_buildArrItem_noSemi o _ ho
  unfold objGet
  cases hf : o.find? (fun p => p.1 = keyProp) with
  | none =>
    simp only [Option.map_none', Option.getD_none]
    decide
  | some p =>
    simp only [Option.map_some', Option.getD_some]
    exact (ho p (List.mem_of_find?_eq_some hf)).2

theorem getGoalStates_setGoalStates_len (goals : List JSObj)
    (h : ∀ o ∈ goals, objNoSemi o) :
    (getGoalStates (setGoalStates goals)).length ≤ goals.length := by
  unfold getGoalStates arrToArrObj sjnToArr setGoalStates arrToSJN arrObjToArr
  by_cases hnil :
      List.intercalate [';'] ((goals.map buildArrItem).map jsJoinStr) = []
  · rw [hnil]
    simp
  · rw [if_neg hnil]
    have hpne : (goals.map buildArrItem).map jsJoinStr ≠ [] := by
      intro hp
      rw [hp] at hnil
      exact hnil (by simp [List.intercalate])
    have hfree : ∀ p ∈ (goals.map buildArrItem).map jsJoinStr, ';' ∉ p := by
      intro p hp
      rcases List.mem_map.1 hp with ⟨v, hv, hvp⟩
      rcases List.mem_map.1 hv with ⟨o, ho, hov⟩
      rw [← hvp, ← hov]
      exact buildArrItem_noSemi (h o ho)
    rw [splitChar_intercalate ';' _ hpne hfree]
    simp

theorem mem_of_topInArr {α : Type} {arr : List α} {ndx : Int} {a : α}
    (h : topInArr arr ndx = some a) : a ∈ arr := by
  unfold topInArr at h
  split at h
  · cases h
  · exact List.getElem?_mem h

theorem updateMost_len_le (sess : List Char) (ndx : Int) (gw : JSObj)
    (hgw : objNoSemi gw) :
    (getGoalStates (updateMostRecentGoalStates sess ndx gw)).length
      ≤ (getGoalStates sess).length := by
  unfold updateMostRecentGoalStates
  cases hu : updateArr (getGoalStates sess) ndx gw with
  | none => exact le_refl _
  | some goals =>
    unfold updateArr at hu
    split at hu
    · cases hu
    · have hg : goals
          = (getGoalStates sess).set
              (((getGoalStates sess).length : Int) - ndx - 1).toNat gw :=
        (Option.some.inj hu).symm
      have hlen : goals.length = (getGoalStates sess).length := by
        rw [hg, List.length_set]
      rw [← hlen]
      apply getGoalStates_setGoalStates_len
      intro o ho
      rw [hg] at ho
      rcases List.mem_or_eq_of_mem_set ho with h1 | h1
      · exact getGoalStates_noSemi sess o h1
      · rw [h1]
        exact hgw

/-- A registered goal definition as far as the loop is concerned
(`registeredGoals[...]`, consulted at line 336): an optional resolver —
modelled by the plain value it settles with at each global iteration —
and the optional `prompt`/`ask` texts (`goalDefQueryable`, line 305). -/
structure GoalDef where
  resolve : Option (Nat → RRes)
  prompt : Option (List Char)
  ask : Option (List Char)

/-- `registeredGoals[k]`: property lookup in the goal table. -/
def lookupGoal (tbl : List (List Char × GoalDef)) (k : List Char) :
    Option GoalDef :=
  (tbl.find? (fun p => p.1 = k)).map (fun p => p.2)

/-- JavaScript truthiness of an optional string property. -/
def optTruthy : Option (List Char) → Bool
  | some s => s ≠ []
  | none => false

/-- The mutable state of one `_followGoals` run (lines 314-317 and the
output manager's `asked`): the encoded goal stack (session slot), the
scaled `asked` counter, `goalNdx`, `moreGoalsToSeek`, and a global
iteration counter feeding the resolver oracles. -/
structure LoopState where
  sess : List Char
  askedS : Nat
  goalNdx : Int
  moreGoals : Bool
  iter : Nat

/-- The `promiseWhile` guard (line 320): `asked < 1 && moreGoalsToSeek`. -/
def loopCond (st : LoopState) : Bool :=
  decide (st.askedS < 100) && st.moreGoals

/-- Lines 342-362 of the loop body, once the frame's goal definition is
in hand: invoke the resolver, or skip an already-queried queryable goal,
or query it (prompt before ask) and mark it `queried`. -/
def stepDef (st : LoopState) (gws : JSObj) (gd : GoalDef) : LoopState :=
  match gd.resolve with
  | some orc =>
    { st with
      sess := resolveGoalSess (orc st.iter) st.sess
        (jsToStr ((objGet gws keyProp).getD JSVal.undef))
      goalNdx := st.goalNdx + 1
      iter := st.iter + 1 }
  | none =>
    if optTruthy gd.prompt || optTruthy gd.ask then
      if jsTruthy ((objGet gws queriedProp).getD JSVal.undef) then
        { st with
          goalNdx := st.goalNdx + 1
          iter := st.iter + 1 }
      else
        { st with
          sess := updateMostRecentGoalStates st.sess (st.goalNdx + 1)
            (objSet gws queriedProp (JSVal.bool true))
          askedS :=
            if optTruthy gd.prompt then st.askedS + 34
            else if optTruthy gd.ask then st.askedS + 100
            else st.askedS
          goalNdx := st.goalNdx + 1
          iter := st.iter + 1 }
    else
      { st with
        goalNdx := st.goalNdx + 1
        iter := st.iter + 1 }

/-- Lines 335-341: look the frame's key up in `registeredGoals`; an
unknown key ends the loop. -/
def stepFrame (tbl : List (List Char × GoalDef)) (st : LoopState)
    (gws : JSObj) : LoopState :=
  match lookupGoal tbl (jsToStr ((objGet gws keyProp).getD JSVal.undef)) with
  | none =>
    { st with
      goalNdx := st.goalNdx + 1
      moreGoals := false
      iter := st.iter + 1 }
  | some gd => stepDef st gws gd

/-- One iteration of the goals loop (lines 321-363).  The
`goalStateChanged` reset and the `goalWithState == lastGoalWithState`
exit are dead (see the section comment) and therefore absent.  The key
read `goalWithState.key` is string-coerced as the property-access index
into `registeredGoals`; an undefined key coerces to `"undefined"`. -/
def stepBody (tbl : List (List Char × GoalDef)) (st : LoopState) : LoopState :=
  match mostRecentGoalStates st.sess (st.goalNdx + 1) with
  | none =>
    { st with
      goalNdx := st.goalNdx + 1
      moreGoals := false
      iter := st.iter + 1 }
  | some gws => stepFrame tbl st gws

/-- The `promiseWhile` loop (lines 319-363), fuelled: runs the body while
the guard holds, at most `fuel` times. -/
def runLoop (tbl : List (List Char × GoalDef)) :
    Nat → LoopState → LoopState
  | 0, st => st
  | fuel + 1, st =>
    if loopCond st then runLoop tbl fuel (stepBody tbl st) else st

/-- The loop entry state (lines 314-317): `goalNdx = -1`, `asked` reset
to 0 for the turn (`OutputMgr.initialize`, line 109), all goals pending. -/
def mkLoopState (sess : List Char) : LoopState :=
  { sess := sess
    askedS := 0
    goalNdx := -1
    moreGoals := true
    iter := 0 }


theorem stepDef_goalNdx (st : LoopState) (gws : JSObj) (gd : GoalDef) :
    (stepDef st gws gd).goalNdx = st.goalNdx + 1 := by
  unfold stepDef
  cases gd.resolve with
  | some orc => rfl
  | none =>
    by_cases h4 : (optTruthy gd.prompt || optTruthy gd.ask) = true
    · rw [if_pos h4]
      by_cases h5 : jsTruthy ((objGet gws queriedProp).getD JSVal.undef) = true
      · rw [if_pos h5]
      · rw [if_neg h5]
    · rw [if_neg h4]

theorem stepBody_goalNdx (tbl : List (List Char × GoalDef)) (st : LoopState) :
    (stepBody tbl st).goalNdx = st.goalNdx + 1 := by
  unfold stepBody
  cases mostRecentGoalStates st.sess (st.goalNdx + 1) with
  | none => rfl
  | some gws =>
    show (stepFrame tbl st gws).goalNdx = _
    unfold stepFrame
    cases lookupGoal tbl (jsToStr ((objGet gws keyProp).getD JSVal.undef)) with
    | none => rfl
    | some gd => exact stepDef_goalNdx st gws gd

theorem stepDef_sess_le (st : LoopState) (gws : JSObj) (gd : GoalDef)
    (hg : objNoSemi gws) :
    (getGoalStates (stepDef st gws gd).sess).length
      ≤ (getGoalStates st.sess).length := by
  unfold stepDef
  cases gd.resolve with
  | some orc =>
    show (getGoalStates (resolveGoalSess (orc st.iter) st.sess _)).length ≤ _
    cases orc st.iter with
    | rTrue => exact clearGoal_len_le _ _
    | rUndef => exact clearGoal_len_le _ _
    | rFalse => exact le_refl _
    | rOther => exact le_refl _
  | none =>
    by_cases h4 : (optTruthy gd.prompt || optTruthy gd.ask) = true
    · rw [if_pos h4]
      by_cases h5 : jsTruthy ((objGet gws queriedProp).getD JSVal.undef) = true
      · rw [if_pos h5]
      · rw [if_neg h5]
        exact updateMost_len_le _ _ _
          (objSet_noSemi hg (by decide) (by decide))
    · rw [if_neg h4]

theorem stepBody_sess_le (tbl : List (List Char × GoalDef)) (st : LoopState) :
    (getGoalStates (stepBody tbl st).sess).length
      ≤ (getGoalStates st.sess).length := by
  unfold stepBody
  cases h1 : mostRecentGoalStates st.sess (st.goalNdx + 1) with
  | none => exact le_refl _
  | some gws =>
    show (getGoalStates (stepFrame tbl st gws).sess).length ≤ _
    unfold stepFrame
    cases lookupGoal tbl (jsToStr ((objGet gws keyProp).getD JSVal.undef)) with
    | none => exact le_refl _
    | some gd =>
      exact stepDef_sess_le st gws gd
        (getGoalStates_noSemi st.sess gws (mem_of_topInArr h1))

theorem stepBody_halt (tbl : List (List Char × GoalDef)) (st : LoopState)
    (h : ((getGoalStates st.sess).length : Int) ≤ st.goalNdx + 1) :
    (stepBody tbl st).moreGoals = false := by
  have hnone : mostRecentGoalStates st.sess (st.goalNdx + 1) = none := by
    unfold mostRecentGoalStates topInArr
    rw [if_pos (Or.inr h)]
  unfold stepBody
  rw [hnone]

theorem stepDef_asked_mono (st : LoopState) (gws : JSObj) (gd : GoalDef) :
    st.askedS ≤ (stepDef st gws gd).askedS := by
  unfold stepDef
  cases gd.resolve with
  | some orc => exact le_refl _
  | none =>
    by_cases h4 : (optTruthy gd.prompt || optTruthy gd.ask) = true
    · rw [if_pos h4]
      by_cases h5 : jsTruthy ((objGet gws queriedProp).getD JSVal.undef) = true
      · rw [if_pos h5]
      · rw [if_neg h5]
        show st.askedS ≤ (if optTruthy gd.prompt then st.askedS + 34
          else if optTruthy gd.ask then st.askedS + 100 else st.askedS)
        by_cases h6 : optTruthy gd.prompt = true
        · rw [if_pos h6]
          omega
        · rw [if_neg h6]
          by_cases h7 : optTruthy gd.ask = true
          · rw [if_pos h7]
            omega
          · rw [if_neg h7]
    · rw [if_neg h4]

theorem stepBody_asked_mono (tbl : List (List Char × GoalDef))
    (st : LoopState) : st.askedS ≤ (stepBody tbl st).askedS := by
  unfold stepBody
  cases mostRecentGoalStates st.sess (st.goalNdx + 1) with
  | none => exact le_refl _
  | some gws =>
    show st.askedS ≤ (stepFrame tbl st gws).askedS
    unfold stepFrame
    cases lookupGoal tbl (jsToStr ((objGet gws keyProp).getD JSVal.undef)) with
    | none => exact le_refl _
    | some gd => exact stepDef_asked_mono st gws gd

theorem stepDef_asked_le (st : LoopState) (gws : JSObj) (gd : GoalDef) :
    (stepDef st gws gd).askedS ≤ st.askedS + 100 := by
  unfold stepDef
  cases gd.resolve with
  | some orc => exact Nat.le_add_right _ _
  | none =>
    by_cases h4 : (optTruthy gd.prompt || optTruthy gd.ask) = true
    · rw [if_pos h4]
      by_cases h5 : jsTruthy ((objGet gws queriedProp).getD JSVal.undef) = true
      · rw [if_pos h5]
        exact Nat.le_add_right _ _
      · rw [if_neg h5]
        show (if optTruthy gd.prompt then st.askedS + 34
          else if optTruthy gd.ask then st.askedS + 100
          else st.askedS) ≤ st.askedS + 100
        by_cases h6 : optTruthy gd.prompt = true
        · rw [if_pos h6]
          omega
        · rw [if_neg h6]
          by_cases h7 : optTruthy gd.ask = true
          · rw [if_pos h7]
          · rw [if_neg h7]
            omega
    · rw [if_neg h4]
      exact Nat.le_add_right _ _

theorem stepBody_asked_le (tbl : List (List Char × GoalDef))
    (st : LoopState) : (stepBody tbl st).askedS ≤ st.askedS + 100 := by
  unfold stepBody
  cases mostRecentGoalStates st.sess (st.goalNdx + 1) with
  | none => exact Nat.le_add_right _ _
  | some gws =>
    show (stepFrame tbl st gws).askedS ≤ _
    unfold stepFrame
    cases lookupGoal tbl (jsToStr ((objGet gws keyProp).getD JSVal.undef)) with
    | none => exact Nat.le_add_right _ _
    | some gd => exact stepDef_asked_le st gws gd

theorem runLoop_not_cond (tbl : List (List Char × GoalDef)) (f : Nat)
    (st : LoopState) (h : loopCond st = false) : runLoop tbl f st = st := by
  cases f with
  | zero => rfl
  | succ f =>
    show (if loopCond st then runLoop tbl f (stepBody tbl st) else st) = st
    rw [h]
    simp

theorem runLoop_halts (tbl : List (List Char × GoalDef)) :
    ∀ (f : Nat) (st : LoopState), 1 ≤ f →
      ((getGoalStates st.sess).length : Int) ≤ st.goalNdx + f →
      loopCond (runLoop tbl f st) = false := by
  intro f
  induction f with
  | zero =>
    intro st h1 _
    omega
  | succ f ih =>
    intro st _ h2
    show loopCond (if loopCond st then runLoop tbl f (stepBody tbl st) else st)
      = false
    by_cases hc : loopCond st = true
    · rw [if_pos hc]
      by_cases hrange : ((getGoalStates st.sess).length : Int) ≤ st.goalNdx + 1
      · have hmg : (stepBody tbl st).moreGoals = false := stepBody_halt tbl st hrange
        rw [runLoop_not_cond tbl f _ (by simp [loopCond, hmg])]
        simp [loopCond, hmg]
      · have hf : 1 ≤ f := by omega
        apply ih (stepBody tbl st) hf
        have ha := stepBody_sess_le tbl st
        rw [stepBody_goalNdx tbl st]
        omega
    · rw [if_neg hc]
      cases hb : loopCond st with
      | false => rfl
      | true => exact absurd hb hc

theorem runLoop_asked_mono (tbl : List (List Char × GoalDef)) :
    ∀ (f : Nat) (st : LoopState), st.askedS ≤ (runLoop tbl f st).askedS := by
  intro f
  induction f with
  | zero =>
    intro st
    exact le_refl _
  | succ f ih =>
    intro st
    show st.askedS ≤ (if loopCond st then runLoop tbl f (stepBody tbl st)
      else st).askedS
    by_cases hc : loopCond st = true
    · rw [if_pos hc]
      exact le_trans (stepBody_asked_mono tbl st) (ih (stepBody tbl st))
    · rw [if_neg hc]

theorem runLoop_asked_lt (tbl : List (List Char × GoalDef)) :
    ∀ (f : Nat) (st : LoopState), st.askedS < 200 →
      (runLoop tbl f st).askedS < 200 := by
  intro f
  induction f with
  | zero =>
    intro st h
    exact h
  | succ f ih =>
    intro st h
    show (if loopCond st then runLoop tbl f (stepBody tbl st) else st).askedS
      < 200
    by_cases hc : loopCond st = true
    · rw [if_pos hc]
      apply ih
      have h1 : st.askedS < 100 := by
        have := hc
        unfold loopCond at this
        simp only [Bool.and_eq_true, decide_eq_true_eq] at this
        exact this.1
      have h2 := stepBody_asked_le tbl st
      omega
    · rw [if_neg hc]
      exact h

/-- C2.  Goal-loop termination with the claimed bound: for every goal
table and every initial goal stack encoding `sess` with
`n = (getGoalStates sess).length` frames, after `2*n + 1` iterations the
`promiseWhile` guard of `_followGoals` is false, i.e. the loop has
halted within `2*n + 1` iterations.  (The bound actually reached is
`n + 1`: `goalNdx` grows by one each iteration, the stack never grows,
and an out-of-range `goalNdx` clears `moreGoalsToSeek`.) -/
theorem C2_goal_loop_termination (tbl : List (List Char × GoalDef))
    (sess : List Char) :
    loopCond (runLoop tbl (2 * (getGoalStates sess).length + 1)
      (mkLoopState sess)) = false := by
  apply runLoop_halts tbl _ (mkLoopState sess) (by omega)
  show ((getGoalStates sess).length : Int)
    ≤ -1 + (2 * (getGoalStates sess).length + 1)
  omega

/-- C4.  The `asked` counter (scaled by 100 as `askedS`): it is reset to
0 at the start of a turn by `OutputMgr.initialize`; `ask` adds exactly 1
(100 scaled) and `prompt` exactly 0.34 (34 scaled); the counter never
decreases across the goals loop; the loop guard fails as soon as
`asked ≥ 1` (100 scaled), so no further goal is scheduled; and after any
number of loop iterations from a fresh turn, `asked < 2` (200 scaled)
holds. -/
theorem C4_asked_counter_invariant :
    (∀ st : OMState, (OMState.initMgr st).askedS = 0)
  ∧ (∀ (st : OMState) (s : List Char), (OMState.ask st s).askedS = st.askedS + 100)
  ∧ (∀ (st : OMState) (s : List Char), (OMState.prompt st s).askedS = st.askedS + 34)
  ∧ (∀ (tbl : List (List Char × GoalDef)) (f : Nat) (st : LoopState),
      st.askedS ≤ (runLoop tbl f st).askedS)
  ∧ (∀ st : LoopState, 100 ≤ st.askedS → loopCond st = false)
  ∧ (∀ (tbl : List (List Char × GoalDef)) (f : Nat) (sess : List Char),
      (runLoop tbl f (mkLoopState sess)).askedS < 200) := by
  refine ⟨fun st => rfl, fun st s => rfl, fun st s => rfl,
    fun tbl f st => runLoop_asked_mono tbl f st, ?_, ?_⟩
  · intro st h
    unfold loopCond
    have : ¬ st.askedS < 100 := by omega
    simp [this]
  · intro tbl f sess
    exact runLoop_asked_lt tbl f (mkLoopState sess) (by
      show (0 : Nat) < 200
      omega)

/-- Witness for C4: the loop guard is false on a concrete state whose
`askedS` has passed 100 (one full `ask`). -/
theorem C4_witness :
    loopCond (LoopState.mk [] 134 0 true 0) = false :=
  C4_asked_counter_invariant.2.2.2.2.1 (LoopState.mk [] 134 0 true 0)
    (by decide)

/-! ## Claim C6: intent dispatch selection (`processAllIntents`,
lines 380-409) -/

/-- An inbound intent's registered definition as far as dispatch is
concerned: the optional `goal` property, and the `resolve` callback
reduced to an identity tag (dispatch only selects it, never calls it). -/
structure IntentDef where
  goal : Option (List Char)
  resolve : Nat
  deriving DecidableEq, Repr

/-- Loose equality `intentDef.goal == currentGoalState.key` (line 403):
the decoded `key` of a goal frame is always a string (`buildArrObj`
stores part 0 as a string), so only the string/string case can arise. -/
def strKeyEq (g : List Char) : Option JSVal → Bool
  | some (JSVal.str s) => g = s
  | _ => false

/-- The inner `for` of lines 401-406: the first definition whose `goal`
is truthy and loosely equal to the frame's key. -/
def pickFromDefs (defs : List IntentDef) (gws : JSObj) : Option IntentDef :=
  defs.find? (fun d =>
    match d.goal with
    | some g => (g ≠ [] : Bool) && strKeyEq g (objGet gws keyProp)
    | none => false)

/-- The `while (true)` of lines 397-407, fuelled: `ndx` starts at 0 and
grows by one per round, and `mostRecentGoalStates` is `none` once `ndx`
reaches the stack depth, so `depth + 1` fuel is always enough. -/
def pickLoop (sess : List Char) (defs : List IntentDef) :
    Nat → Nat → Option IntentDef
  | 0, _ => none
  | fuel + 1, ndx =>
    match mostRecentGoalStates sess (ndx : Int) with
    | none => none
    | some gws =>
      match pickFromDefs defs gws with
      | some d => some d
      | none => pickLoop sess defs fuel (ndx + 1)

/-- `InputMgr.processAllIntents` (lines 380-409), reduced to the selected
definition and whether the warning of line 408 is logged; `none` for an
empty definition array (on which the source would fault reading
`intentDefArr[0].goal`). -/
def processAllIntents (sess : List Char) (defs : List IntentDef) :
    Option (IntentDef × Bool) :=
  match defs with
  | [] => none
  | d0 :: rest =>
    if rest.length = 0 then some (d0, false)
    else
      match pickLoop sess defs ((getGoalStates sess).length + 1) 0 with
      | some d => some (d, false)
      | none => some (d0, true)

/-- The dispatch rule as the specification words it: a single definition
is selected unconditionally; otherwise the stack is walked top-down
(depth 0 is the last decoded frame, so top-down order is the reversed
decode) and the first definition whose `goal` equals the current frame's
key wins; with no match, the first definition is selected and the
warning is logged. -/
def dispatchSpec (sess : List Char) (defs : List IntentDef) :
    Option (IntentDef × Bool) :=
  match defs with
  | [] => none
  | d0 :: rest =>
    if rest.length = 0 then some (d0, false)
    else
      match (getGoalStates sess).reverse.findSome?
          (fun gws => defs.find? (fun d =>
            match d.goal with
            | some g => strKeyEq g (objGet gws keyProp)
            | none => false)) with
      | some d => some (d, false)
      | none => some (d0, true)

theorem drop_eq_cons_of_getElem? {α : Type} {l : List α} {n : Nat} {a : α}
    (h : l[n]? = some a) : l.drop n = a :: l.drop (n + 1) := by
  have hn : n < l.length := by
    by_contra hc
    rw [List.getElem?_eq_none (by omega)] at h
    cases h
  rw [List.getElem?_eq_getElem hn] at h
  rw [List.drop_eq_getElem_cons hn, Option.some.inj h]

theorem pickLoop_eq_findSome (sess : List Char) (defs : List IntentDef) :
    ∀ (fuel ndx : Nat), (getGoalStates sess).length ≤ ndx + fuel →
      pickLoop sess defs fuel ndx
        = ((getGoalStates sess).reverse.drop ndx).findSome?
            (pickFromDefs defs) := by
  intro fuel
  induction fuel with
  | zero =>
    intro ndx h
    have hd : (getGoalStates sess).reverse.drop ndx = [] :=
      List.drop_eq_nil_of_le (by simpa using h)
    rw [hd]
    rfl
  | succ fuel ih =>
    intro ndx h
    show (match mostRecentGoalStates sess (ndx : Int) with
      | none => none
      | some gws =>
        match pickFromDefs defs gws with
        | some d => some d
        | none => pickLoop sess defs fuel (ndx + 1)) = _
    by_cases hlt : ndx < (getGoalStates sess).length
    · have hidx : (((getGoalStates sess).length : Int) - (ndx : Int) - 1).toNat
          = (getGoalStates sess).length - 1 - ndx := by omega
      have harr : (getGoalStates sess)[(getGoalStates sess).length - 1 - ndx]?
          = mostRecentGoalStates sess (ndx : Int) := by
        unfold mostRecentGoalStates topInArr
        rw [if_neg (by push_cast; omega), hidx]
      cases hm : mostRecentGoalStates sess (ndx : Int) with
      | none =>
        rw [hm] at harr
        rw [List.getElem?_eq_getElem (by omega)] at harr
        cases harr
      | some gws =>
        rw [hm] at harr
        have hrevq : (getGoalStates sess).reverse[ndx]? = some gws := by
          rw [List.getElem?_reverse hlt]
          exact harr
        have hrev : (getGoalStates sess).reverse.drop ndx
            = gws :: (getGoalStates sess).reverse.drop (ndx + 1) :=
          drop_eq_cons_of_getElem? hrevq
        simp only [hm]
        rw [hrev, List.findSome?_cons]
        cases hpf : pickFromDefs defs gws with
        | some d => rfl
        | none => exact ih (ndx + 1) (by omega)
    · have hm : mostRecentGoalStates sess (ndx : Int) = none := by
        unfold mostRecentGoalStates topInArr
        rw [if_pos (Or.inr (by push_cast; omega))]
      rw [hm]
      have hd : (getGoalStates sess).reverse.drop ndx = [] :=
        List.drop_eq_nil_of_le (by simp; omega)
      rw [hd]
      rfl

theorem pickFromDefs_eq_spec (gws : JSObj) :
    ∀ (defs : List IntentDef), (∀ d ∈ defs, d.goal ≠ some []) →
      pickFromDefs defs gws
        = defs.find? (fun d =>
            match d.goal with
            | some g => strKeyEq g (objGet gws keyProp)
            | none => false) := by
  intro defs
  induction defs with
  | nil =>
    intro _
    rfl
  | cons d rest ih =>
    intro h
    show List.find? _ (d :: rest) = List.find? _ (d :: rest)
    rw [List.find?_cons, List.find?_cons]
    have hpred : (match d.goal with
        | some g => (g ≠ [] : Bool) && strKeyEq g (objGet gws keyProp)
        | none => false)
      = (match d.goal with
        | some g => strKeyEq g (objGet gws keyProp)
        | none => false) := by
      cases hg : d.goal with
      | none => rfl
      | some g =>
        have hne : g ≠ [] := by
          intro hge
          exact h d (by simp) (by rw [hg, hge])
        simp [hne]
    rw [hpred]
    cases (match d.goal with
      | some g => strKeyEq g (objGet gws keyProp)
      | none => false) with
    | true => rfl
    | false => exact ih (fun x hx => h x (List.mem_cons_of_mem d hx))

/-- C6.  Intent dispatch selection: provided no registered definition
carries an empty-string `goal` (which is falsy in the source's
truthiness guard but would compare equal to an empty frame key under the
spec's plain-equality reading), `processAllIntents` selects exactly as
the specification describes: a sole definition unconditionally; else the
first definition whose goal equals the key of a frame, frames visited
top-down; else the first definition, with a warning. -/
theorem C6_intent_dispatch (sess : List Char) (defs : List IntentDef)
    (h : ∀ d ∈ defs, d.goal ≠ some []) :
    processAllIntents sess defs = dispatchSpec sess defs := by
  cases defs with
  | nil => rfl
  | cons d0 rest =>
    unfold processAllIntents dispatchSpec
    show (if rest.length = 0 then some (d0, false)
        else match pickLoop sess (d0 :: rest) ((getGoalStates sess).length + 1) 0 with
          | some d => some (d, false)
          | none => some (d0, true))
      = (if rest.length = 0 then some (d0, false)
        else match (getGoalStates sess).reverse.findSome? (fun gws =>
            List.find? (fun d =>
              match d.goal with
              | some g => strKeyEq g (objGet gws keyProp)
              | none => false) (d0 :: rest)) with
          | some d => some (d, false)
          | none => some (d0, true))
    by_cases hr : rest.length = 0
    · rw [if_pos hr, if_pos hr]
    · rw [if_neg hr, if_neg hr]
      rw [pickLoop_eq_findSome sess (d0 :: rest) _ 0 (by omega)]
      rw [List.drop_zero]
      have hfun : pickFromDefs (d0 :: rest)
          = (fun gws => (d0 :: rest).find? (fun d =>
              match d.goal with
              | some g => strKeyEq g (objGet gws keyProp)
              | none => false)) :=
        funext (fun gws => pickFromDefs_eq_spec gws _ h)
      rw [hfun]

/-- Witness for C6: two definitions, the second one's goal `checkIn`
matching the single stacked frame; both readings select it without a
warning. -/
theorem C6_witness :
    processAllIntents ('c' :: 'h' :: 'e' :: 'c' :: 'k' :: 'I' :: 'n' :: [])
        [IntentDef.mk (some ('o' :: 't' :: 'h' :: 'e' :: 'r' :: [])) 1,
         IntentDef.mk (some ('c' :: 'h' :: 'e' :: 'c' :: 'k' :: 'I' :: 'n' :: [])) 2]
      = dispatchSpec ('c' :: 'h' :: 'e' :: 'c' :: 'k' :: 'I' :: 'n' :: [])
        [IntentDef.mk (some ('o' :: 't' :: 'h' :: 'e' :: 'r' :: [])) 1,
         IntentDef.mk (some ('c' :: 'h' :: 'e' :: 'c' :: 'k' :: 'I' :: 'n' :: [])) 2] :=
  C6_intent_dispatch _ _ (by decide)

/-! ## Claim C9: phrase-equivalent expansion (`forPhraseEquivalents`,
lines 223-245) -/

/-- `_interpolate` (lines 55-57): substring up to the match, the
replacement, then the substring after the matched text. -/
def jsInterpolate (originalStr foundStr : List Char) (foundStrPos : Nat)
    (replaceStr : List Char) : List Char :=
  originalStr.take foundStrPos ++ replaceStr
    ++ originalStr.drop (foundStrPos + foundStr.length)

/-- `String.prototype.toLowerCase`. -/
def lowerStr (s : List Char) : List Char := s.map Char.toLower

/-- `String.prototype.indexOf`: position of the first occurrence. -/
def strIndexOf : (hay pat : List Char) → Option Nat
  | hay, pat =>
    if pat.isPrefixOf hay then some 0
    else
      match hay with
      | [] => none
      | _ :: rest => (strIndexOf rest pat).map (fun n => n + 1)

/-- The pushes made for one phrase of one equivalence set against one
original utterance (lines 231-240): on a case-insensitive match, one
interpolation per *other* phrase of the set, in set order. -/
def contribPhrase (item : List Char) (equivSet : List (List Char))
    (phraseNdx : Nat) (phrase : List Char) : List (List Char) :=
  match strIndexOf (lowerStr item) (lowerStr phrase) with
  | none => []
  | some pos =>
    (equivSet.enum.filter (fun q => q.1 ≠ phraseNdx)).map
      (fun q => jsInterpolate item phrase pos q.2)

/-- All pushes of one equivalence set against one original utterance:
every phrase of the set is tried (the scan does not stop at the first
matching phrase). -/
def contribSet (item : List Char) (equivSet : List (List Char)) :
    List (List Char) :=
  ((equivSet.enum).map (fun p => contribPhrase item equivSet p.1 p.2)).flatten

/-- `ScriptParser.forPhraseEquivalents` (lines 223-245): `max` is the
input length and is captured before any push, so only the original
utterances are scanned (one pass); every push lands after them. -/
def forPhraseEquivalents (phraseEquivalents : List (List (List Char)))
    (userSpeech : List (List Char)) : List (List Char) :=
  userSpeech ++ (userSpeech.map (fun item =>
    (phraseEquivalents.map (fun equivSet => contribSet item equivSet)).flatten)).flatten

theorem perm_flatten_map {α β : Type} (f g : α → List β) (l : List α)
    (h : ∀ x ∈ l, List.Perm (f x) (g x)) :
    List.Perm (l.map f).flatten (l.map g).flatten := by
  induction l with
  | nil => simp
  | cons a l ih =>
    simp only [List.map_cons, List.flatten_cons]
    exact List.Perm.append (h a (by simp))
      (ih (fun x hx => h x (List.mem_cons_of_mem a hx)))

/-- C9.  Phrase-equivalent expansion commutes as a multiset: one-pass
expansion (the pass is over the original utterances only, as `max` is
captured before the pushes) with the equivalence sets `[S, T]` is a
permutation of the expansion with `[T, S]`. -/
theorem C9_phrase_equivalents_comm (S T : List (List Char))
    (us : List (List Char)) :
    List.Perm (forPhraseEquivalents [S, T] us)
      (forPhraseEquivalents [T, S] us) := by
  unfold forPhraseEquivalents
  apply List.Perm.append (List.Perm.refl us)
  apply perm_flatten_map
  intro item _
  simp only [List.map_cons, List.map_nil, List.flatten_cons, List.flatten_nil,
    List.append_nil]
  exact List.perm_append_comm

/-! ## Claim C8: slot extraction (`ScriptParser`, lines 184-264)

The pipeline applied to the author's utterances is `forPunctuation`,
then `forSlots`, then `forPhraseEquivalents`, and
`extractParamsFromSpeech` runs on the produced utterances. -/

/-- A value of the `keyTypes` table: a platform type code (a string) or
a custom type (an object carrying `type` and optionally
`sampleValues`). -/
inductive KType
  | prim (s : List Char)
  | custom (ty : List Char) (sampleValues : Option (List (List Char)))
  deriving DecidableEq, Repr

/-- The key-type table `keyTypes` (a JavaScript object). -/
abbrev KeyTypes := List (List Char × KType)

def ktGet (kts : KeyTypes) (k : List Char) : Option KType :=
  (kts.find? (fun p => p.1 = k)).map (fun p => p.2)

def ktSet (kts : KeyTypes) (k : List Char) (v : KType) : KeyTypes :=
  if kts.any (fun p => p.1 = k) then
    kts.map (fun p => if p.1 = k then (k, v) else p)
  else kts ++ [(k, v)]

/-- JavaScript truthiness of a `keyTypes` entry: an empty type string is
falsy, an object is truthy. -/
def ktTruthy : KType → Bool
  | .prim s => s ≠ []
  | .custom _ _ => true

/-- The platform type code of an entry (`expectedParams[ev].type` for
custom types, lines 258-260). -/
def flatType : KType → List Char
  | .prim s => s
  | .custom ty _ => ty

/-- `String.prototype.trim` (whitespace at both ends). -/
def trimStr (s : List Char) : List Char :=
  ((s.dropWhile Char.isWhitespace).reverse.dropWhile Char.isWhitespace).reverse

/-- First match of `/(\d+)/`: position and maximal digit run. -/
def findDigitRun : List Char → Option (Nat × List Char)
  | [] => none
  | c :: rest =>
    if c.isDigit then some (0, c :: rest.takeWhile Char.isDigit)
    else (findDigitRun rest).map (fun p => (p.1 + 1, p.2))

/-- The `_interpolateParamsFromStore` loop of `forPunctuation`
(lines 188-190 with lines 58-68), fuelled.  `utils.getNumAsStr` lives in
`utils.js`, which is not part of this source tree; it is abstracted as
the `numToWords` argument. -/
def interpolateDigits (numToWords : List Char → List Char) :
    Nat → List Char → List Char
  | 0, s => s
  | fuel + 1, s =>
    match findDigitRun s with
    | none => s
    | some p =>
      interpolateDigits numToWords fuel (jsInterpolate s p.2 p.1 (numToWords p.2))

/-- `ScriptParser.forPunctuation` (lines 184-193): strip `,` and `?`,
then spell out digit runs. -/
def forPunctuation (numToWords : List Char → List Char) (fuel : Nat)
    (us : List (List Char)) : List (List Char) :=
  (us.map (fun u => u.filter (fun c => ¬ (c = ',' ∨ c = '?')))).map
    (interpolateDigits numToWords fuel)

/-- The character class of `paramsRE` (line 23):
`[a-zA-Z0-9_,+\-*\/\s\\.()']`. -/
def isParamChar (c : Char) : Bool :=
  c.isAlpha ∨ c.isDigit ∨ c = '_' ∨ c = ',' ∨ c = '+' ∨ c = '-' ∨ c = '*'
    ∨ c = '/' ∨ c.isWhitespace ∨ c = '\\' ∨ c = '.' ∨ c = '(' ∨ c = ')'
    ∨ c = '\''

/-- Match of `paramsRE` at the start of the string: `[[`, a run of class
characters (greedy, `]` is not in the class), then `]]`. -/
def paramMatchAt : List Char → Option (List Char)
  | '[' :: '[' :: rest =>
    if [']', ']'].isPrefixOf (rest.drop (rest.takeWhile isParamChar).length)
    then some (rest.takeWhile isParamChar)
    else none
  | _ => none

/-- First match of `paramsRE`: position and captured name. -/
def findParam : List Char → Option (Nat × List Char)
  | [] => none
  | c :: rest =>
    match paramMatchAt (c :: rest) with
    | some name => some (0, name)
    | none => (findParam rest).map (fun p => (p.1 + 1, p.2))

/-- `literalSampleValuesStore.get` (lines 201-217): the replacement for
`[[name]]` is `{sampleValues|name}` with `-` standing in when no sample
values are known; an unknown name is registered in `keyTypes` as
`AMAZON.LITERAL`. -/
def slotReplacement (kts : KeyTypes) (name : List Char) :
    KeyTypes × List Char :=
  match ktGet kts name with
  | some (KType.custom _ (some sv)) =>
    (kts, '{' :: List.intercalate ['|'] (sv.map trimStr) ++ '|' :: name ++ ['}'])
  | some _ =>
    (kts, '{' :: '-' :: '|' :: name ++ ['}'])
  | none =>
    (ktSet kts name (KType.prim ('A' :: 'M' :: 'A' :: 'Z' :: 'O' :: 'N' :: '.'
      :: 'L' :: 'I' :: 'T' :: 'E' :: 'R' :: 'A' :: 'L' :: [])),
     '{' :: '-' :: '|' :: name ++ ['}'])

/-- The `_interpolateParamsFromStore` loop of `forSlots` (line 217 with
lines 58-68), fuelled (`paramsRE` is not sticky, so each round rescans
from the start). -/
def interpSlotsStr : Nat → KeyTypes → List Char → KeyTypes × List Char
  | 0, kts, s => (kts, s)
  | fuel + 1, kts, s =>
    match findParam s with
    | none => (kts, s)
    | some p =>
      match slotReplacement kts p.2 with
      | (kts2, rep) =>
        interpSlotsStr fuel kts2
          (jsInterpolate s ('[' :: '[' :: p.2 ++ (']' :: ']' :: [])) p.1 rep)

/-- `ScriptParser.forSlots` (lines 195-221): rewrite each utterance,
threading the (mutated) `keyTypes` table through. -/
def forSlots (kts : KeyTypes) (fuel : Nat) (us : List (List Char)) :
    KeyTypes × List (List Char) :=
  us.foldl (fun acc u =>
    match interpSlotsStr fuel acc.1 u with
    | (kts2, u2) => (kts2, acc.2 ++ [u2])) (kts, [])

/-- `[a-zA-Z]` of the extraction regex. -/
def isAsciiLetter (c : Char) : Bool :=
  ('a' ≤ c ∧ c ≤ 'z') ∨ ('A' ≤ c ∧ c ≤ 'Z')

/-- Global scan for `/\|[a-zA-Z]*}/g` (line 250), as a one-pass state
machine: `none` means outside any candidate; `some run` means a `|` was
seen, followed by the letters of `run` (reversed).  A `}` closes a
match (the scan resumes after it); a fresh `|` restarts the candidate;
anything else drops it. -/
def scanPipeAux : Option (List Char) → List Char → List (List Char)
  | _, [] => []
  | none, c :: rest =>
    if c = '|' then scanPipeAux (some []) rest else scanPipeAux none rest
  | some run, c :: rest =>
    if isAsciiLetter c then scanPipeAux (some (c :: run)) rest
    else if c = '}' then ('|' :: run.reverse ++ ['}']) :: scanPipeAux none rest
    else if c = '|' then scanPipeAux (some []) rest
    else scanPipeAux none rest

def scanPipe (s : List Char) : List (List Char) := scanPipeAux none s

/-- One `extractedVars.forEach` step (lines 252-262): `ev` is the match
without its first and last characters; empty names are skipped, known
truthy names are recorded (custom types reduced to their `type`). -/
def extractStep (kts : KeyTypes) (m : JSObj) (ex : List Char) : JSObj :=
  if (ex.drop 1).dropLast = [] then m
  else
    match ktGet kts ((ex.drop 1).dropLast) with
    | some kt =>
      if ktTruthy kt then
        objSet m ((ex.drop 1).dropLast) (JSVal.str (flatType kt))
      else m
    | none => m

/-- `ScriptParser.extractParamsFromSpeech` (lines 247-264). -/
def extractParamsFromSpeech (kts : KeyTypes) (us : List (List Char)) : JSObj :=
  us.foldl (fun m u => (scanPipe u).foldl (extractStep kts) m) []

theorem scanPipeAux_nil (st : Option (List Char)) : scanPipeAux st [] = [] := by
  cases st <;> rfl

theorem scanPipeAux_none_cons (c : Char) (rest : List Char) :
    scanPipeAux none (c :: rest)
      = if c = '|' then scanPipeAux (some []) rest
        else scanPipeAux none rest := rfl

theorem scanPipeAux_some_cons (run : List Char) (c : Char) (rest : List Char) :
    scanPipeAux (some run) (c :: rest)
      = if isAsciiLetter c then scanPipeAux (some (c :: run)) rest
        else if c = '}' then
          ('|' :: run.reverse ++ ['}']) :: scanPipeAux none rest
        else if c = '|' then scanPipeAux (some []) rest
        else scanPipeAux none rest := rfl

theorem scanPipeAux_shape :
    ∀ (s : List Char) (st : Option (List Char)), ∀ m ∈ scanPipeAux st s,
      ∃ name, m = '|' :: name ++ ['}'] := by
  intro s
  induction s with
  | nil =>
    intro st m hm
    rw [scanPipeAux_nil] at hm
    simp at hm
  | cons c rest ih =>
    intro st m hm
    cases st with
    | none =>
      rw [scanPipeAux_none_cons] at hm
      by_cases hc : c = '|'
      · rw [if_pos hc] at hm
        exact ih (some []) m hm
      · rw [if_neg hc] at hm
        exact ih none m hm
    | some run =>
      rw [scanPipeAux_some_cons] at hm
      by_cases h1 : isAsciiLetter c = true
      · rw [if_pos h1] at hm
        exact ih (some (c :: run)) m hm
      · rw [if_neg h1] at hm
        by_cases h2 : c = '}'
        · rw [if_pos h2] at hm
          rcases List.mem_cons.1 hm with h3 | h3
          · exact ⟨run.reverse, h3⟩
          · exact ih none m h3
        · rw [if_neg h2] at hm
          by_cases h3 : c = '|'
          · rw [if_pos h3] at hm
            exact ih (some []) m hm
          · rw [if_neg h3] at hm
            exact ih none m hm

theorem scanPipeAux_within :
    ∀ (s : List Char),
      (∀ m ∈ scanPipeAux none s, m <:+: s)
      ∧ (∀ (run : List Char), ∀ m ∈ scanPipeAux (some run) s,
          m <:+: '|' :: run.reverse ++ s) := by
  intro s
  induction s with
  | nil =>
    refine ⟨?_, ?_⟩
    · intro m hm
      rw [scanPipeAux_nil] at hm
      simp at hm
    · intro run m hm
      rw [scanPipeAux_nil] at hm
      simp at hm
  | cons c rest ih =>
    obtain ⟨ihn, ihs⟩ := ih
    refine ⟨?_, ?_⟩
    · intro m hm
      rw [scanPipeAux_none_cons] at hm
      by_cases hc : c = '|'
      · rw [if_pos hc] at hm
        have h := ihs [] m hm
        rw [hc]
        simpa using h
      · rw [if_neg hc] at hm
        exact (ihn m hm).trans (List.suffix_cons c rest).isInfix
    · intro run m hm
      rw [scanPipeAux_some_cons] at hm
      by_cases h1 : isAsciiLetter c = true
      · rw [if_pos h1] at hm
        have h := ihs (c :: run) m hm
        have heq : '|' :: (c :: run).reverse ++ rest
            = '|' :: run.reverse ++ c :: rest := by
          simp
        rw [heq] at h
        exact h
      · rw [if_neg h1] at hm
        by_cases h2 : c = '}'
        · rw [if_pos h2] at hm
          rcases List.mem_cons.1 hm with h3 | h3
          · rw [h3, h2]
            exact ⟨[], rest, by simp⟩
          · refine (ihn m h3).trans ⟨'|' :: run.reverse ++ [c], [], by simp⟩
        · rw [if_neg h2] at hm
          by_cases h3 : c = '|'
          · rw [if_pos h3] at hm
            have h := ihs [] m hm
            simp only [List.reverse_nil, List.nil_append] at h
            refine h.trans ⟨'|' :: run.reverse, [], by simp [h3]⟩
          · rw [if_neg h3] at hm
            refine (ihn m hm).trans ⟨'|' :: run.reverse ++ [c], [], by simp⟩

theorem mem_objSet {o : JSObj} {k : List Char} {v : JSVal}
    {p : List Char × JSVal} (hp : p ∈ objSet o k v) : p ∈ o ∨ p = (k, v) := by
  unfold objSet at hp
  split at hp
  · rcases List.mem_map.1 hp with ⟨q, hq, hqp⟩
    by_cases hqk : q.1 = k
    · rw [if_pos hqk] at hqp
      right
      exact hqp.symm
    · rw [if_neg hqk] at hqp
      left
      exact hqp ▸ hq
  · rcases List.mem_append.1 hp with h | h
    · left
      exact h
    · right
      simpa using h

/-- The soundness property each extracted binding satisfies relative to
a produced utterance list. -/
def goodParam (kts : KeyTypes) (us : List (List Char))
    (p : List Char × JSVal) : Prop :=
  p.1 ≠ []
  ∧ (∃ kt, ktGet kts p.1 = some kt ∧ ktTruthy kt = true
      ∧ p.2 = JSVal.str (flatType kt))
  ∧ ∃ u ∈ us, ('|' :: p.1 ++ ['}']) <:+: u

theorem extractStep_good (kts : KeyTypes) (us : List (List Char))
    (u : List Char) (hu : u ∈ us) :
    ∀ (ms : List (List Char)) (m0 : JSObj),
      (∀ ex ∈ ms, ex <:+: u ∧ ∃ name, ex = '|' :: name ++ ['}']) →
      (∀ p ∈ m0, goodParam kts us p) →
      ∀ p ∈ ms.foldl (extractStep kts) m0, goodParam kts us p := by
  intro ms
  induction ms with
  | nil =>
    intro m0 _ hm p hp
    exact hm p hp
  | cons ex ms ih =>
    intro m0 hms hm p hp
    simp only [List.foldl_cons] at hp
    refine ih (extractStep kts m0 ex)
      (fun x hx => hms x (List.mem_cons_of_mem ex hx)) ?_ p hp
    intro q hq
    unfold extractStep at hq
    by_cases h1 : (ex.drop 1).dropLast = []
    · rw [if_pos h1] at hq
      exact hm q hq
    · rw [if_neg h1] at hq
      cases hg : ktGet kts ((ex.drop 1).dropLast) with
      | none =>
        rw [hg] at hq
        exact hm q hq
      | some kt =>
        simp only [hg] at hq
        by_cases h2 : ktTruthy kt = true
        · rw [if_pos h2] at hq
          rcases mem_objSet hq with h3 | h3
          · exact hm q h3
          · obtain ⟨hinf, name, hshape⟩ := hms ex (by simp)
            have hev : (ex.drop 1).dropLast = name := by
              rw [hshape]
              simp
            rw [h3]
            refine ⟨h1, ⟨kt, hg, h2, rfl⟩, u, hu, ?_⟩
            show ('|' :: (ex.drop 1).dropLast ++ ['}']) <:+: u
            rw [hev, ← hshape]
            exact hinf
        · rw [if_neg h2] at hq
          exact hm q hq

theorem extract_good_aux (kts : KeyTypes) (us : List (List Char)) :
    ∀ (l : List (List Char)), (∀ u ∈ l, u ∈ us) →
      ∀ (m0 : JSObj), (∀ p ∈ m0, goodParam kts us p) →
      ∀ p ∈ l.foldl (fun m u => (scanPipe u).foldl (extractStep kts) m) m0,
        goodParam kts us p := by
  intro l
  induction l with
  | nil =>
    intro _ m0 hm p hp
    exact hm p hp
  | cons u l ih =>
    intro hl m0 hm p hp
    simp only [List.foldl_cons] at hp
    refine ih (fun x hx => hl x (List.mem_cons_of_mem u hx)) _ ?_ p hp
    intro q hq
    refine extractStep_good kts us u (hl u (by simp)) (scanPipe u) m0 ?_ hm q hq
    intro ex hex
    refine ⟨(scanPipeAux_within u).1 ex hex, scanPipeAux_shape u none ex hex⟩

/-- C8 (amended).  Slot-extraction soundness holds relative to the
*produced* utterances, not the author-written originals: every binding
`(name, type)` returned by `extractParamsFromSpeech` has a non-empty
`name` declared (truthy) in `keyTypes`, the recorded type is the
declared one (custom types reduced to their `type` code), and some
produced utterance contains the segment `|name}`.  The segment need not
come from an interpolated `[[name]]`: an author-written optional group
such as `{a|b}` also matches the extraction regex (see the
counterexample), so `[[name]]` need not occur in the originals. -/
theorem C8_slot_extraction (kts : KeyTypes) (us : List (List Char)) :
    ∀ p ∈ extractParamsFromSpeech kts us, goodParam kts us p := by
  intro p hp
  unfold extractParamsFromSpeech at hp
  refine extract_good_aux kts us us (fun u hu => hu) [] ?_ p hp
  intro q hq
  simp at hq

/-- C8 counterexample: with `b` declared in `keyTypes`, the author
utterance `tell me {a|b}` passes unchanged through `forPunctuation`,
`forSlots` (no `[[...]]` to rewrite) and `forPhraseEquivalents` (no
equivalence sets), yet `extractParamsFromSpeech` extracts `b` from the
author-written optional group — and `[[b]]` occurs nowhere in the
original utterance. -/
theorem C8_counterexample :
    extractParamsFromSpeech
        (forSlots [(('b' :: []), KType.prim ('B' :: 'T' :: []))] 10
          (forPunctuation (fun _ => []) 10 ["tell me \x7ba|b\x7d".toList])).1
        (forPhraseEquivalents []
          (forSlots [(('b' :: []), KType.prim ('B' :: 'T' :: []))] 10
            (forPunctuation (fun _ => []) 10 ["tell me \x7ba|b\x7d".toList])).2)
      = [(('b' :: []), JSVal.str ('B' :: 'T' :: []))]
    ∧ ¬ ('[' :: '[' :: 'b' :: ']' :: ']' :: []) <:+: "tell me \x7ba|b\x7d".toList := by
  refine ⟨by decide, by decide⟩

/-- Witness for C8: the amended soundness at the concrete table and
produced utterance of the counterexample. -/
theorem C8_witness :
    goodParam [(('b' :: []), KType.prim ('B' :: 'T' :: []))]
      ["tell me \x7ba|b\x7d".toList]
      (('b' :: []), JSVal.str ('B' :: 'T' :: [])) :=
  C8_slot_extraction [(('b' :: []), KType.prim ('B' :: 'T' :: []))]
    ["tell me \x7ba|b\x7d".toList]
    (('b' :: []), JSVal.str ('B' :: 'T' :: [])) (by decide)
